import Mathlib

/-!
# VM_RK: natural cubic spline and RK4 integrator

A shallow embedding of `spline.h` (class `cubic_spline`) and `frk_vm.h`
(`func`, `R_K`).  The C++ code computes on `double`; the development below is
about exact arithmetic, so every definition is written over an arbitrary
linearly ordered field `α` (it runs on `ℚ`, and the theorems hold on `ℝ`).

* C arrays reached through a raw pointer are functions `Nat → _` (a cell per
  index, no bounds); an assignment to a cell is `store`.
* Storage returned by `new[]` is not initialised by the code.  Its contents are
  an explicit argument (`fresh_mem`), so that a theorem quantifying over it
  says that the result does not depend on what the storage held.
* `size_t` indices are `Nat`.  With `n ≥ 2` none of `n - 1`, `n - 2`, `i + 1`
  wraps; for `n < 2` the C++ code writes out of bounds and is not modelled.
* The library functions `sin` and `cos` are parameters of `func` and `R_K`.
* Where a statement is about `double` itself and not about exact arithmetic,
  the expression is evaluated on the type `double` of special values (finite,
  `±∞`, NaN); `func` is written once, for both arithmetics.
* The NaN returned by `f` on an unbuilt spline is `none`.
* The loop of `R_K` runs over a real counter and need not terminate, so it is
  given fuel: `none` means that the fuel ran out before the loop ended.
-/

set_option linter.unusedSectionVars false

namespace VMRK

variable {α : Type} [LinearOrderedField α]

/-! ## spline.h -/

/-- The struct `cubic_spline::spline_tuple`: the coefficients of one segment. -/
structure spline_tuple (α : Type) where
  a : α
  b : α
  c : α
  d : α
  x : α
deriving DecidableEq, Repr

/-- The assignment `t.a = v` to a member of a `spline_tuple`. -/
@[simp] def spline_tuple.set_a {α : Type} (t : spline_tuple α) (v : α) : spline_tuple α :=
  { t with a := v }

/-- The assignment `t.b = v`. -/
@[simp] def spline_tuple.set_b {α : Type} (t : spline_tuple α) (v : α) : spline_tuple α :=
  { t with b := v }

/-- The assignment `t.c = v`. -/
@[simp] def spline_tuple.set_c {α : Type} (t : spline_tuple α) (v : α) : spline_tuple α :=
  { t with c := v }

/-- The assignment `t.d = v`. -/
@[simp] def spline_tuple.set_d {α : Type} (t : spline_tuple α) (v : α) : spline_tuple α :=
  { t with d := v }

/-- The assignment `t.x = v`. -/
@[simp] def spline_tuple.set_x {α : Type} (t : spline_tuple α) (v : α) : spline_tuple α :=
  { t with x := v }

/-- The data members of class `cubic_spline`: `splines` is `none` for the
NULL pointer, otherwise the array it points to; `n` is the number of nodes. -/
structure cubic_spline (α : Type) where
  splines : Option (Nat → spline_tuple α)
  n : Nat

/-- The indeterminate contents of the three arrays that `build_spline` obtains
from `new[]`: `splines`, `alpha` and `beta`. -/
structure fresh_mem (α : Type) where
  splines : Nat → spline_tuple α
  alpha : Nat → α
  beta : Nat → α

/-- The assignment `s[i] = v` to a cell of an array. -/
def store {β : Type} (s : Nat → β) (i : Nat) (v : β) : Nat → β :=
  fun j => if j = i then v else s j

/-- The constructor `cubic_spline::cubic_spline() : splines(NULL)`.  It leaves
the member `n` uninitialised: `n0` is whatever value it holds. -/
def new_cubic_spline (n0 : Nat) : cubic_spline α :=
  { splines := none, n := n0 }

/-- The method `cubic_spline::free_mem`: release the array and reset the pointer. -/
def cubic_spline.free_mem (self : cubic_spline α) : cubic_spline α :=
  match self.splines with
  | some _ => { self with splines := none }
  | none => self

/-- The first loop of `build_spline`, `for (i = 0; i < n; ++i)`: the array after
its first `k` iterations, which store `x[i]` and `y[i]` in cell `i`. -/
def init_loop (x y : Nat → α) (s0 : Nat → spline_tuple α) : Nat → (Nat → spline_tuple α)
  | 0 => s0
  | k + 1 =>
    let s := init_loop x y s0 k
    let s := store s k ((s k).set_x (x k))
    store s k ((s k).set_a (y k))

/-- One iteration of the forward sweep of `build_spline` (lines 67-74), at index `i`. -/
def sweep_step (x y : Nat → α) (i : Nat) (ab : (Nat → α) × (Nat → α)) :
    (Nat → α) × (Nat → α) :=
  let alpha := ab.1
  let beta := ab.2
  let h_i := x i - x (i - 1)
  let h_i1 := x (i + 1) - x i
  let A := h_i
  let C := 2 * (h_i + h_i1)
  let B := h_i1
  let F := 6 * ((y (i + 1) - y i) / h_i1 - (y i - y (i - 1)) / h_i)
  let z := A * alpha (i - 1) + C
  let alpha := store alpha i (-B / z)
  let beta := store beta i ((F - A * beta (i - 1)) / z)
  (alpha, beta)

/-- The forward sweep `for (i = 1; i < n - 1; ++i)`: the arrays `(alpha, beta)`
after its first `k` iterations, that is after the indices `1, ..., k`. -/
def sweep_loop (x y : Nat → α) (ab0 : (Nat → α) × (Nat → α)) :
    Nat → (Nat → α) × (Nat → α)
  | 0 => ab0
  | k + 1 => sweep_step x y (k + 1) (sweep_loop x y ab0 k)

/-- The backward substitution `for (i = n - 2; i > 0; --i)`, entered with the
counter at `i`: `splines[i].c = alpha[i] * splines[i + 1].c + beta[i]`. -/
def back_loop (alpha beta : Nat → α) : Nat → (Nat → spline_tuple α) → (Nat → spline_tuple α)
  | 0, s => s
  | i + 1, s =>
    back_loop alpha beta i
      (store s (i + 1) ((s (i + 1)).set_c (alpha (i + 1) * (s (i + 1 + 1)).c + beta (i + 1))))

/-- The last loop of `build_spline`, `for (i = n - 1; i > 0; --i)`, entered with
the counter at `i`: it stores `d` and then `b` of cell `i`. -/
def bd_loop (x y : Nat → α) : Nat → (Nat → spline_tuple α) → (Nat → spline_tuple α)
  | 0, s => s
  | i + 1, s =>
    let h_i := x (i + 1) - x (i + 1 - 1)
    let s := store s (i + 1)
      ((s (i + 1)).set_d (((s (i + 1)).c - (s (i + 1 - 1)).c) / h_i))
    let s := store s (i + 1)
      ((s (i + 1)).set_b
        (h_i * (2 * (s (i + 1)).c + (s (i + 1 - 1)).c) / 6 + (y (i + 1) - y (i + 1 - 1)) / h_i))
    bd_loop x y i s

/-- The method `cubic_spline::build_spline(x, y, n)`.  `m` is the content of the
newly allocated arrays before the code writes to them. -/
def cubic_spline.build_spline (self : cubic_spline α) (x y : Nat → α) (n : Nat)
    (m : fresh_mem α) : cubic_spline α :=
  let self := self.free_mem
  let self := { self with n := n }
  let s := init_loop x y m.splines n
  -- splines[0].c = splines[n - 1].c = 0.;
  let s := store s (n - 1) ((s (n - 1)).set_c 0)
  let s := store s 0 ((s 0).set_c (s (n - 1)).c)
  -- alpha[0] = beta[0] = 0.;
  let beta := store m.beta 0 0
  let alpha := store m.alpha 0 (beta 0)
  let ab := sweep_loop x y (alpha, beta) (n - 2)
  let s := back_loop ab.1 ab.2 (n - 2) s
  let s := bd_loop x y (n - 1) s
  { self with splines := some s }

/-- The binary search of `cubic_spline::f` (lines 107-114), entered with the
bounds `i` and `j`; it returns the final `j`. -/
def search (splines : Nat → spline_tuple α) (x : α) (i j : Nat) : Nat :=
  if i + 1 < j then
    let k := i + (j - i) / 2
    if x ≤ (splines k).x then search splines x i k else search splines x k j
  else j
termination_by j - i
decreasing_by
  all_goals simp_wf
  all_goals omega

/-- The index of the segment that `cubic_spline::f` evaluates (lines 99-116):
the offset of the pointer `s` from `splines`. -/
def segment_index (splines : Nat → spline_tuple α) (n : Nat) (x : α) : Nat :=
  if x ≤ (splines 0).x then 1
  else if x ≥ (splines (n - 1)).x then n - 1
  else search splines x 0 (n - 1)

/-- The Horner evaluation of line 121 on the segment `s`. -/
def horner (s : spline_tuple α) (x : α) : α :=
  let dx := x - s.x
  s.a + (s.b + (s.c / 2 + s.d * dx / 6) * dx) * dx

/-- The method `cubic_spline::f(x)`; `none` is the NaN of an unbuilt spline. -/
def cubic_spline.f (self : cubic_spline α) (x : α) : Option α :=
  match self.splines with
  | none => none
  | some splines => some (horner (splines (segment_index splines self.n x)) x)

/-! ## frk_vm.h -/

/-- The function `func(v, x, lambda, N)`, over any arithmetic `β` that has the
operations the expression uses: an exact field, or the `double` of the last
section of the definitions with its infinities and NaN. -/
def func {β : Type} [Mul β] [Add β] [Neg β] [One β] (sin cos : β → β) (v x lambda N : β) : β :=
  -1 * (lambda * v * cos (N * x) + sin x)

/-- The body of the loop of `R_K` after the two `push_back` (lines 16-29): the
new value of the pair `(_dx, _dv)`. -/
def R_K_step (sin cos : α → α) (h lambda N : α) (st : α × α) : α × α :=
  let _dx := st.1
  let _dv := st.2
  let dx1 := h * _dv
  let dv1 := h * func sin cos _dv _dx lambda N
  let dx2 := h * (_dv + dv1 / 2)
  let dv2 := h * func sin cos (_dv + dv1 / 2) (_dx + dx1 / 2) lambda N
  let dx3 := h * (_dv + dv2 / 2)
  let dv3 := h * func sin cos (_dv + dv2 / 2) (_dx + dx2 / 2) lambda N
  let dx4 := h * (_dv + dv3)
  let dv4 := h * func sin cos (_dv + dv3) (_dx + dx3) lambda N
  let dx := (dx1 + 2 * dx2 + 2 * dx3 + dx4) / 6
  let dv := (dv1 + 2 * dv2 + 2 * dv3 + dv4) / 6
  (_dx + dx, _dv + dv)

/-- The loop `for (double i = begin; i < end; i += h)` of `R_K`, entered with
the counter at `i`, the state `st = (_dx, _dv)` and the vectors `res`, `res_v`.
It may run `fuel` iterations; `none` means more are needed. -/
def R_K_loop (sin cos : α → α) (end_ h lambda N : α) :
    Nat → α → α × α → List α × List α → Option ((α × α) × (List α × List α))
  | 0, i, st, out => if i < end_ then none else some (st, out)
  | fuel + 1, i, st, out =>
    if i < end_ then
      R_K_loop sin cos end_ h lambda N fuel (i + h) (R_K_step sin cos h lambda N st)
        (out.1 ++ [st.1], out.2 ++ [st.2])
    else some (st, out)

/-- The function `R_K(begin, end, h, lambda, x0dash, N, res, res_v)`: the
vectors `(res, res_v)` when it returns. -/
def R_K (sin cos : α → α) (fuel : Nat) (begin end_ h lambda x0dash N : α)
    (res res_v : List α) : Option (List α × List α) :=
  match R_K_loop sin cos end_ h lambda N fuel begin (begin, x0dash) (res, res_v) with
  | none => none
  | some (st, out) => some (out.1 ++ [st.2], out.2)

/-! ## Preconditions and the polynomial form of a segment -/

/-- The precondition of `build_spline` on the nodes (comment at line 26 of
`spline.h`): `x[0..n-1]` is in increasing order and has no repeated node. -/
def increasing (x : Nat → α) (n : Nat) : Prop :=
  ∀ i, i < n - 1 → x i < x (i + 1)

instance (x : Nat → α) (n : Nat) : Decidable (increasing x n) :=
  Nat.decidableBallLT (n - 1) (fun i _ => x i < x (i + 1))

/-- The cubic of a segment in the power form of the specification,
`a + b·dx + c/2·dx² + d/6·dx³`, as a function of the offset `dx`. -/
def cubic_at (t : spline_tuple α) (dx : α) : α :=
  t.a + t.b * dx + t.c / 2 * dx ^ 2 + t.d / 6 * dx ^ 3

/-- The cubic piece `p_j(t) = a_j + b_j(t - x_j) + c_j/2 (t - x_j)² + d_j/6 (t - x_j)³`
of segment `j` of the array `s`, anchored at the node `x[j]`. -/
def piece (s : Nat → spline_tuple α) (x : Nat → α) (j : Nat) (t : α) : α :=
  cubic_at (s j) (t - x j)

/-- The right-hand side `F(x, v) = (v, f(v, x, lambda, N))` of the first-order
system `x' = v`, `v' = f(v, x, lambda, N) = -(lambda·v·cos(N·x) + sin(x))`, in
the words of the specification. -/
def rk4_F (sin cos : α → α) (lambda N : α) (s : α × α) : α × α :=
  (s.2, -(lambda * s.2 * cos (N * s.1) + sin s.1))

/-- The classical RK4 map of the specification on a state `s = (x, v)`:
`s + (k1 + 2 k2 + 2 k3 + k4) / 6` with `k1 = h F(s)`, `k2 = h F(s + k1/2)`,
`k3 = h F(s + k2/2)`, `k4 = h F(s + k3)`. -/
def rk4_map (sin cos : α → α) (h lambda N : α) (s : α × α) : α × α :=
  let k1 := h • rk4_F sin cos lambda N s
  let k2 := h • rk4_F sin cos lambda N (s + (1 / 2 : α) • k1)
  let k3 := h • rk4_F sin cos lambda N (s + (1 / 2 : α) • k2)
  let k4 := h • rk4_F sin cos lambda N (s + k3)
  s + (1 / 6 : α) • (k1 + (2 : α) • k2 + (2 : α) • k3 + k4)

/-- The relations that hold between the input `(x, y, n)`, the array `s` stored
by `build_spline` and the sweep coefficients `al`, `be` it computed. -/
structure Fitted (x y : Nat → α) (n : Nat) (s : Nat → spline_tuple α) (al be : Nat → α) :
    Prop where
  node : ∀ j, j < n → (s j).x = x j ∧ (s j).a = y j
  c_first : (s 0).c = 0
  c_last : (s (n - 1)).c = 0
  al_zero : al 0 = 0
  be_zero : be 0 = 0
  sweep : ∀ i, 1 ≤ i → i ≤ n - 2 →
    al i = -(x (i + 1) - x i) /
        ((x i - x (i - 1)) * al (i - 1) + 2 * ((x i - x (i - 1)) + (x (i + 1) - x i))) ∧
    be i =
      (6 * ((y (i + 1) - y i) / (x (i + 1) - x i) - (y i - y (i - 1)) / (x i - x (i - 1))) -
          (x i - x (i - 1)) * be (i - 1)) /
        ((x i - x (i - 1)) * al (i - 1) + 2 * ((x i - x (i - 1)) + (x (i + 1) - x i)))
  back : ∀ i, 1 ≤ i → i ≤ n - 2 → (s i).c = al i * (s (i + 1)).c + be i
  bd : ∀ j, 1 ≤ j → j < n →
    (s j).d = ((s j).c - (s (j - 1)).c) / (x j - x (j - 1)) ∧
    (s j).b =
      (x j - x (j - 1)) * (2 * (s j).c + (s (j - 1)).c) / 6 +
        (y j - y (j - 1)) / (x j - x (j - 1))

/-- The pivot `z = A * alpha[i - 1] + C` of line 72 of `spline.h`: its value at the
index `i` of the forward sweep, computed from the array `alpha` as it stands on
entry to that iteration. -/
def pivot (x : Nat → α) (i : Nat) (alpha : Nat → α) : α :=
  let h_i := x i - x (i - 1)
  let h_i1 := x (i + 1) - x i
  let A := h_i
  let C := 2 * (h_i + h_i1)
  A * alpha (i - 1) + C

/-- The arrays `(alpha, beta)` of `build_spline` (lines 62-75) when its forward
sweep has run `k` iterations: they start from the fresh storage of `m` with
`alpha[0] = beta[0] = 0`. -/
def build_sweep (x y : Nat → α) (m : fresh_mem α) (k : Nat) : (Nat → α) × (Nat → α) :=
  let beta := store m.beta 0 0
  let alpha := store m.alpha 0 (beta 0)
  sweep_loop x y (alpha, beta) k

/-! ## The special values of `double`

The definitions above compute in an exact field.  A `double` can also be an
infinity or NaN, and an operation whose result leaves the range gives an
infinity.  The type below traces exactly that, by the rules of IEEE 754 and of
Annex F of the C standard: finite results are kept exact (rounding is not
modelled) and the two zeros are one value. -/

/-- A `double` as far as its special values go: a finite value, `+∞`, `-∞` or NaN. -/
inductive double (α : Type) where
  | fin (a : α)
  | pinf
  | ninf
  | nan
deriving DecidableEq, Repr

/-- The `double` for an operation whose exact result is `r`: under rounding to
nearest the result is an infinity as soon as `|r| ≥ 2^1024 - 2^970`. -/
def double.of_exact (r : α) : double α :=
  if (2 : α) ^ 1024 - 2 ^ 970 ≤ r then double.pinf
  else if r ≤ -((2 : α) ^ 1024 - 2 ^ 970) then double.ninf
  else double.fin r

/-- The product of two `double`: NaN is absorbing, `0 · ±∞` is NaN, and an
infinity takes the sign of the product. -/
def double.mul : double α → double α → double α
  | double.nan, _ => double.nan
  | _, double.nan => double.nan
  | double.fin a, double.fin b => double.of_exact (a * b)
  | double.fin a, double.pinf =>
    if 0 < a then double.pinf else if a < 0 then double.ninf else double.nan
  | double.fin a, double.ninf =>
    if 0 < a then double.ninf else if a < 0 then double.pinf else double.nan
  | double.pinf, double.fin b =>
    if 0 < b then double.pinf else if b < 0 then double.ninf else double.nan
  | double.ninf, double.fin b =>
    if 0 < b then double.ninf else if b < 0 then double.pinf else double.nan
  | double.pinf, double.pinf => double.pinf
  | double.pinf, double.ninf => double.ninf
  | double.ninf, double.pinf => double.ninf
  | double.ninf, double.ninf => double.pinf

/-- The sum of two `double`: NaN is absorbing and `+∞ + -∞` is NaN. -/
def double.add : double α → double α → double α
  | double.nan, _ => double.nan
  | _, double.nan => double.nan
  | double.fin a, double.fin b => double.of_exact (a + b)
  | double.fin _, double.pinf => double.pinf
  | double.fin _, double.ninf => double.ninf
  | double.pinf, double.fin _ => double.pinf
  | double.ninf, double.fin _ => double.ninf
  | double.pinf, double.pinf => double.pinf
  | double.ninf, double.ninf => double.ninf
  | double.pinf, double.ninf => double.nan
  | double.ninf, double.pinf => double.nan

/-- The negation of a `double`. -/
def double.neg : double α → double α
  | double.fin a => double.fin (-a)
  | double.pinf => double.ninf
  | double.ninf => double.pinf
  | double.nan => double.nan

instance : Mul (double α) := ⟨double.mul⟩

instance : Add (double α) := ⟨double.add⟩

instance : Neg (double α) := ⟨double.neg⟩

instance : One (double α) := ⟨double.fin 1⟩

/-- A library function such as `sin` or `cos` on `double`, from its values `g` on
finite arguments: at `±∞` and at NaN it returns NaN (C standard, F.10.1). -/
def double.lib (g : α → α) : double α → double α
  | double.fin a => double.fin (g a)
  | _ => double.nan

/-! ## Concrete runs -/

/-- The array behind a pointer to the listed values (cells past the end read 0). -/
def arr (l : List α) : Nat → α := fun i => l.getD i 0

/-- A content for the fresh storage: every cell holds `v`. -/
def mem_const (v : α) : fresh_mem α :=
  { splines := fun _ => ⟨v, v, v, v, v⟩, alpha := fun _ => v, beta := fun _ => v }

/-! ## Cells and the loops of `build_spline` -/

@[simp] theorem store_same {β : Type} (s : Nat → β) (i : Nat) (v : β) : store s i v i = v := by
  simp [store]

theorem store_ne {β : Type} (s : Nat → β) (i j : Nat) (v : β) (h : j ≠ i) :
    store s i v j = s j := by
  simp [store, h]


/-- After `k` iterations of the first loop the cells below `k` hold their node
and value, and no `b`, `c`, `d` has been written. -/
theorem init_loop_spec (x y : Nat → α) (s0 : Nat → spline_tuple α) (k j : Nat) :
    (j < k → (init_loop x y s0 k j).x = x j ∧ (init_loop x y s0 k j).a = y j) ∧
    (k ≤ j → init_loop x y s0 k j = s0 j) ∧
    (init_loop x y s0 k j).b = (s0 j).b ∧ (init_loop x y s0 k j).c = (s0 j).c ∧
    (init_loop x y s0 k j).d = (s0 j).d := by
  induction k with
  | zero => simp [init_loop]
  | succ k ih =>
    obtain ⟨ih1, ih2, ih3, ih4, ih5⟩ := ih
    by_cases hjk : j = k
    · subst hjk
      simp [init_loop, ih3, ih4, ih5]
    · simp only [init_loop, store_ne _ _ _ _ hjk]
      refine ⟨fun h => ih1 (by omega), fun h => ih2 (by omega), ih3, ih4, ih5⟩

/-- The forward sweep writes the cells `1, ..., k` only. -/
theorem sweep_loop_frame (x y : Nat → α) (ab0 : (Nat → α) × (Nat → α)) (k j : Nat)
    (h : j = 0 ∨ k < j) :
    (sweep_loop x y ab0 k).1 j = ab0.1 j ∧ (sweep_loop x y ab0 k).2 j = ab0.2 j := by
  induction k with
  | zero => simp [sweep_loop]
  | succ k ih =>
    have hj : j ≠ k + 1 := by omega
    have ih2 := ih (by omega)
    simp only [sweep_loop, sweep_step, store_ne _ _ _ _ hj]
    exact ih2

/-- A cell written by the forward sweep is not written again. -/
theorem sweep_loop_stable (x y : Nat → α) (ab0 : (Nat → α) × (Nat → α)) (k m j : Nat)
    (h : j ≤ k) :
    (sweep_loop x y ab0 (k + m)).1 j = (sweep_loop x y ab0 k).1 j ∧
    (sweep_loop x y ab0 (k + m)).2 j = (sweep_loop x y ab0 k).2 j := by
  induction m with
  | zero => simp
  | succ m ih =>
    have hj : j ≠ k + m + 1 := by omega
    rw [← Nat.add_assoc]
    simp only [sweep_loop, sweep_step, store_ne _ _ _ _ hj]
    exact ih

/-- The sweep coefficients left by the forward sweep satisfy its recurrence. -/
theorem sweep_loop_rec (x y : Nat → α) (ab0 : (Nat → α) × (Nat → α)) (K i : Nat)
    (h1 : 1 ≤ i) (h2 : i ≤ K) :
    (sweep_loop x y ab0 K).1 i =
      -(x (i + 1) - x i) /
        ((x i - x (i - 1)) * (sweep_loop x y ab0 K).1 (i - 1) +
          2 * ((x i - x (i - 1)) + (x (i + 1) - x i))) ∧
    (sweep_loop x y ab0 K).2 i =
      (6 * ((y (i + 1) - y i) / (x (i + 1) - x i) - (y i - y (i - 1)) / (x i - x (i - 1))) -
          (x i - x (i - 1)) * (sweep_loop x y ab0 K).2 (i - 1)) /
        ((x i - x (i - 1)) * (sweep_loop x y ab0 K).1 (i - 1) +
          2 * ((x i - x (i - 1)) + (x (i + 1) - x i))) := by
  obtain ⟨m, rfl⟩ : ∃ m, K = i + m := ⟨K - i, by omega⟩
  obtain ⟨i0, rfl⟩ : ∃ i0, i = i0 + 1 := ⟨i - 1, by omega⟩
  have e1 := sweep_loop_stable x y ab0 (i0 + 1) m (i0 + 1) (le_refl _)
  have e2 := sweep_loop_stable x y ab0 (i0 + 1) m i0 (by omega)
  have e3 := sweep_loop_stable x y ab0 i0 1 i0 (le_refl _)
  simp only [Nat.add_sub_cancel] at *
  rw [e1.1, e1.2, e2.1, e2.2, e3.1, e3.2]
  simp [sweep_loop, sweep_step]

/-- The backward substitution entered at `i` writes `c` of the cells `i, ..., 1`
by its recurrence and leaves everything else as it was. -/
theorem back_loop_spec (alpha beta : Nat → α) (i : Nat) (s : Nat → spline_tuple α) (j : Nat) :
    ((j = 0 ∨ i < j) → back_loop alpha beta i s j = s j) ∧
    ((1 ≤ j ∧ j ≤ i) →
      (back_loop alpha beta i s j).c =
        alpha j * (back_loop alpha beta i s (j + 1)).c + beta j) ∧
    (back_loop alpha beta i s j).a = (s j).a ∧ (back_loop alpha beta i s j).b = (s j).b ∧
    (back_loop alpha beta i s j).d = (s j).d ∧ (back_loop alpha beta i s j).x = (s j).x := by
  induction i generalizing s j with
  | zero =>
    refine ⟨fun _ => rfl, fun h => by omega, rfl, rfl, rfl, rfl⟩
  | succ i ih =>
    simp only [back_loop]
    have ihj := ih (store s (i + 1) ((s (i + 1)).set_c
      (alpha (i + 1) * (s (i + 1 + 1)).c + beta (i + 1)))) j
    obtain ⟨f1, f2, f3, f4, f5, f6⟩ := ihj
    refine ⟨?_, ?_, ?_, ?_, ?_, ?_⟩
    · intro h
      rw [f1 (by omega), store_ne _ _ _ _ (by omega)]
    · intro h
      by_cases hj : j = i + 1
      · subst hj
        have g1 := (ih (store s (i + 1) ((s (i + 1)).set_c
          (alpha (i + 1) * (s (i + 1 + 1)).c + beta (i + 1)))) (i + 1)).1 (by omega)
        have g2 := (ih (store s (i + 1) ((s (i + 1)).set_c
          (alpha (i + 1) * (s (i + 1 + 1)).c + beta (i + 1)))) (i + 1 + 1)).1 (by omega)
        rw [g1, g2, store_same, store_ne _ _ _ _ (by omega)]
        simp
      · exact f2 (by omega)
    · rw [f3]; by_cases hj : j = i + 1
      · subst hj; simp
      · rw [store_ne _ _ _ _ hj]
    · rw [f4]; by_cases hj : j = i + 1
      · subst hj; simp
      · rw [store_ne _ _ _ _ hj]
    · rw [f5]; by_cases hj : j = i + 1
      · subst hj; simp
      · rw [store_ne _ _ _ _ hj]
    · rw [f6]; by_cases hj : j = i + 1
      · subst hj; simp
      · rw [store_ne _ _ _ _ hj]

/-- The last loop entered at `i` writes `d` and `b` of the cells `i, ..., 1` from
the `c` coefficients and leaves everything else as it was. -/
theorem bd_loop_spec (x y : Nat → α) (i : Nat) (s : Nat → spline_tuple α) (j : Nat) :
    ((j = 0 ∨ i < j) → bd_loop x y i s j = s j) ∧
    ((1 ≤ j ∧ j ≤ i) →
      (bd_loop x y i s j).d = ((s j).c - (s (j - 1)).c) / (x j - x (j - 1)) ∧
      (bd_loop x y i s j).b =
        (x j - x (j - 1)) * (2 * (s j).c + (s (j - 1)).c) / 6 +
          (y j - y (j - 1)) / (x j - x (j - 1))) ∧
    (bd_loop x y i s j).a = (s j).a ∧ (bd_loop x y i s j).c = (s j).c ∧
    (bd_loop x y i s j).x = (s j).x := by
  induction i generalizing s j with
  | zero =>
    refine ⟨fun _ => rfl, fun h => by omega, rfl, rfl, rfl⟩
  | succ i ih =>
    simp only [bd_loop]
    generalize hs1 : store s (i + 1) ((s (i + 1)).set_d
      (((s (i + 1)).c - (s (i + 1 - 1)).c) / (x (i + 1) - x (i + 1 - 1)))) = s1
    generalize hs2 : store s1 (i + 1) ((s1 (i + 1)).set_b
      ((x (i + 1) - x (i + 1 - 1)) * (2 * (s1 (i + 1)).c + (s1 (i + 1 - 1)).c) / 6 +
        (y (i + 1) - y (i + 1 - 1)) / (x (i + 1) - x (i + 1 - 1)))) = s2
    have c1 : ∀ k, (s1 k).c = (s k).c := by
      intro k; rw [← hs1]; by_cases hk : k = i + 1
      · subst hk; simp
      · rw [store_ne _ _ _ _ hk]
    have n1 : ∀ k, k ≠ i + 1 → s2 k = s k := by
      intro k hk; rw [← hs2, store_ne _ _ _ _ hk, ← hs1, store_ne _ _ _ _ hk]
    have t2 : s2 (i + 1) = ((s1 (i + 1)).set_b
      ((x (i + 1) - x (i + 1 - 1)) * (2 * (s (i + 1)).c + (s (i + 1 - 1)).c) / 6 +
        (y (i + 1) - y (i + 1 - 1)) / (x (i + 1) - x (i + 1 - 1)))) := by
      rw [← hs2, store_same, c1, c1]
    have t1 : s1 (i + 1) = ((s (i + 1)).set_d
      (((s (i + 1)).c - (s (i + 1 - 1)).c) / (x (i + 1) - x (i + 1 - 1)))) := by
      rw [← hs1, store_same]
    obtain ⟨f1, f2, f3, f4, f5⟩ := ih s2 j
    refine ⟨?_, ?_, ?_, ?_, ?_⟩
    · intro h
      rw [f1 (by omega), n1 j (by omega)]
    · intro h
      by_cases hj : j = i + 1
      · subst hj
        rw [f1 (by omega), t2, t1]
        simp
      · have := f2 (by omega)
        rw [n1 j hj, n1 (j - 1) (by omega)] at this
        exact this
    · rw [f3]; by_cases hj : j = i + 1
      · subst hj; rw [t2, t1]; simp
      · rw [n1 j hj]
    · rw [f4]; by_cases hj : j = i + 1
      · subst hj; rw [t2, t1]; simp
      · rw [n1 j hj]
    · rw [f5]; by_cases hj : j = i + 1
      · subst hj; rw [t2, t1]; simp
      · rw [n1 j hj]

/-! ## What `build_spline` leaves in memory -/

/-- The object left by `build_spline`: a non-null `splines`, the member `n`, and
the relations of `Fitted` with the sweep coefficients of its forward sweep,
whatever the object and the fresh storage held. -/
theorem build_spline_fitted_sweep (self : cubic_spline α) (x y : Nat → α) (n : Nat)
    (m : fresh_mem α) (hn : 2 ≤ n) :
    ∃ s, (self.build_spline x y n m).splines = some s ∧
      (self.build_spline x y n m).n = n ∧
      Fitted x y n s (build_sweep x y m (n - 2)).1 (build_sweep x y m (n - 2)).2 := by
  refine ⟨_, rfl, rfl, ?_⟩
  simp only [build_sweep]
  generalize hs0 : init_loop x y m.splines n = s0
  generalize hs1 : store s0 (n - 1) ((s0 (n - 1)).set_c 0) = s1
  generalize hs2 : store s1 0 ((s1 0).set_c (s1 (n - 1)).c) = s2
  generalize hab : sweep_loop x y
    (store m.alpha 0 (store m.beta 0 0 0), store m.beta 0 0) (n - 2) = ab
  generalize hs3 : back_loop ab.1 ab.2 (n - 2) s2 = s3
  have e1 : (s1 (n - 1)).c = 0 := by rw [← hs1]; simp
  have c20 : (s2 0).c = 0 := by rw [← hs2, store_same]; simpa using e1
  have c2n : (s2 (n - 1)).c = 0 := by
    by_cases h0 : n - 1 = 0
    · rw [h0]; exact c20
    · rw [← hs2, store_ne _ _ _ _ h0]; exact e1
  have xa2 : ∀ j, j < n → (s2 j).x = x j ∧ (s2 j).a = y j := by
    intro j hj
    have h0 := (init_loop_spec x y m.splines n j).1 hj
    rw [hs0] at h0
    have h1 : (s1 j).x = x j ∧ (s1 j).a = y j := by
      rw [← hs1]; by_cases hj1 : j = n - 1
      · subst hj1; simpa using h0
      · rw [store_ne _ _ _ _ hj1]; exact h0
    rw [← hs2]; by_cases hj0 : j = 0
    · subst hj0; simpa using h1
    · rw [store_ne _ _ _ _ hj0]; exact h1
  have c3 : ∀ j, (j = 0 ∨ n - 2 < j) → (s3 j).c = (s2 j).c := by
    intro j hj; rw [← hs3, (back_loop_spec ab.1 ab.2 (n - 2) s2 j).1 hj]
  constructor
  · intro j hj
    obtain ⟨-, -, f3, -, f5⟩ := bd_loop_spec x y (n - 1) s3 j
    obtain ⟨-, -, g3, -, -, g6⟩ := back_loop_spec ab.1 ab.2 (n - 2) s2 j
    rw [hs3] at g3 g6
    rw [f5, f3, g6, g3]
    exact xa2 j hj
  · rw [(bd_loop_spec x y (n - 1) s3 0).2.2.2.1, c3 0 (Or.inl rfl)]; exact c20
  · rw [(bd_loop_spec x y (n - 1) s3 (n - 1)).2.2.2.1, c3 (n - 1) (by omega)]; exact c2n
  · rw [← hab, (sweep_loop_frame x y _ (n - 2) 0 (Or.inl rfl)).1]; simp
  · rw [← hab, (sweep_loop_frame x y _ (n - 2) 0 (Or.inl rfl)).2]; simp
  · intro i h1 h2
    rw [← hab]
    exact sweep_loop_rec x y _ (n - 2) i h1 h2
  · intro i h1 h2
    rw [(bd_loop_spec x y (n - 1) s3 i).2.2.2.1, (bd_loop_spec x y (n - 1) s3 (i + 1)).2.2.2.1,
      ← hs3]
    exact (back_loop_spec ab.1 ab.2 (n - 2) s2 i).2.1 ⟨h1, h2⟩
  · intro j h1 h2
    have := (bd_loop_spec x y (n - 1) s3 j).2.1 ⟨h1, by omega⟩
    rw [(bd_loop_spec x y (n - 1) s3 j).2.2.2.1, (bd_loop_spec x y (n - 1) s3 (j - 1)).2.2.2.1]
    exact this

/-- The object left by `build_spline`, with the sweep coefficients left unnamed. -/
theorem build_spline_fitted (self : cubic_spline α) (x y : Nat → α) (n : Nat)
    (m : fresh_mem α) (hn : 2 ≤ n) :
    ∃ s al be, (self.build_spline x y n m).splines = some s ∧
      (self.build_spline x y n m).n = n ∧ Fitted x y n s al be := by
  obtain ⟨s, h1, h2, F⟩ := build_spline_fitted_sweep self x y n m hn
  exact ⟨s, _, _, h1, h2, F⟩

/-! ## The tridiagonal system -/

/-- One step of the bound on the sweep coefficients: from `-1/2 < al ≤ 0` the
pivot exceeds `2 * h1`, so it is positive and the next coefficient is again in
`(-1/2, 0]`. -/
theorem pivot_step (h0 h1 al : α) (p0 : 0 < h0) (p1 : 0 < h1) (l : -(1 / 2) < al) :
    0 < h0 * al + 2 * (h0 + h1) ∧ -(1 / 2) < -h1 / (h0 * al + 2 * (h0 + h1)) ∧
      -h1 / (h0 * al + 2 * (h0 + h1)) ≤ 0 := by
  have hz : 2 * h1 < h0 * al + 2 * (h0 + h1) := by nlinarith
  have hz0 : 0 < h0 * al + 2 * (h0 + h1) := by linarith
  refine ⟨hz0, ?_, ?_⟩
  · rw [neg_div, neg_lt_neg_iff, div_lt_iff₀ hz0]
    linarith
  · rw [neg_div, neg_nonpos]
    exact div_nonneg p1.le hz0.le

/-- On increasing nodes every sweep coefficient lies in `(-1/2, 0]`. -/
theorem Fitted.al_bound {x y : Nat → α} {n : Nat} {s : Nat → spline_tuple α}
    {al be : Nat → α} (F : Fitted x y n s al be) (hx : increasing x n) (i : Nat)
    (hi : i ≤ n - 2) : -(1 / 2) < al i ∧ al i ≤ 0 := by
  induction i with
  | zero => rw [F.al_zero]; norm_num
  | succ i ih =>
    obtain ⟨l, -⟩ := ih (by omega)
    have p0 : 0 < x (i + 1) - x (i + 1 - 1) := by
      have := hx i (by omega)
      simpa using this
    have p1 : 0 < x (i + 1 + 1) - x (i + 1) := by
      have := hx (i + 1) (by omega)
      simpa using this
    have e := (F.sweep (i + 1) (by omega) hi).1
    have := pivot_step _ _ (al (i + 1 - 1)) p0 p1 (by simpa using l)
    rw [e]
    exact this.2

/-- On increasing nodes every pivot `z = A * alpha[i - 1] + C` of the forward
sweep is positive. -/
theorem Fitted.pivot_pos {x y : Nat → α} {n : Nat} {s : Nat → spline_tuple α}
    {al be : Nat → α} (F : Fitted x y n s al be) (hx : increasing x n) (i : Nat)
    (h1 : 1 ≤ i) (hi : i ≤ n - 2) :
    0 < (x i - x (i - 1)) * al (i - 1) + 2 * ((x i - x (i - 1)) + (x (i + 1) - x i)) := by
  obtain ⟨l, -⟩ := F.al_bound hx (i - 1) (by omega)
  have p0 : 0 < x i - x (i - 1) := by
    have := hx (i - 1) (by omega)
    rw [Nat.sub_add_cancel h1] at this
    linarith
  have p1 : 0 < x (i + 1) - x i := by
    have := hx i (by omega)
    linarith
  exact (pivot_step _ _ (al (i - 1)) p0 p1 l).1

/-- The backward recurrence also holds at index 0, where `alpha[0] = beta[0] = 0`
and `c[0] = 0`. -/
theorem Fitted.back_zero {x y : Nat → α} {n : Nat} {s : Nat → spline_tuple α}
    {al be : Nat → α} (F : Fitted x y n s al be) (i : Nat) (hi : i ≤ n - 2) :
    (s i).c = al i * (s (i + 1)).c + be i := by
  rcases Nat.eq_zero_or_pos i with h | h
  · subst h; rw [F.c_first, F.al_zero, F.be_zero]; simp
  · exact F.back i h hi

/-- The stored `c` coefficients solve the tridiagonal system of the natural spline. -/
theorem Fitted.tridiagonal {x y : Nat → α} {n : Nat} {s : Nat → spline_tuple α}
    {al be : Nat → α} (F : Fitted x y n s al be) (hx : increasing x n) (i : Nat)
    (h1 : 1 ≤ i) (hi : i ≤ n - 2) :
    (x i - x (i - 1)) * (s (i - 1)).c + 2 * ((x i - x (i - 1)) + (x (i + 1) - x i)) * (s i).c +
        (x (i + 1) - x i) * (s (i + 1)).c =
      6 * ((y (i + 1) - y i) / (x (i + 1) - x i) - (y i - y (i - 1)) / (x i - x (i - 1))) := by
  have hz := F.pivot_pos hx i h1 hi
  have hb := F.back_zero (i - 1) (by omega)
  rw [Nat.sub_add_cancel h1] at hb
  have hc := F.back i h1 hi
  obtain ⟨ea, eb⟩ := F.sweep i h1 hi
  generalize hzd : (x i - x (i - 1)) * al (i - 1) +
    2 * ((x i - x (i - 1)) + (x (i + 1) - x i)) = z at hz ea eb
  generalize 6 * ((y (i + 1) - y i) / (x (i + 1) - x i) - (y i - y (i - 1)) / (x i - x (i - 1)))
    = F0 at eb ⊢
  have hzc : z * (s i).c = -(x (i + 1) - x i) * (s (i + 1)).c +
      (F0 - (x i - x (i - 1)) * be (i - 1)) := by
    rw [hc, ea, eb]
    field_simp
  rw [hb]
  linear_combination hzc + (s i).c * hzd

/-! ## The evaluator -/

/-- One unfolding of the binary search loop. -/
theorem search_eq (sp : Nat → spline_tuple α) (q : α) (i j : Nat) :
    search sp q i j =
      if i + 1 < j then
        (if q ≤ (sp (i + (j - i) / 2)).x then search sp q i (i + (j - i) / 2)
          else search sp q (i + (j - i) / 2) j)
      else j := by
  rw [search]

/-- The binary search entered with `i < j` returns an index in `(i, j]`. -/
theorem search_bounds (sp : Nat → spline_tuple α) (q : α) (i j : Nat) (hij : i < j) :
    i < search sp q i j ∧ search sp q i j ≤ j := by
  obtain ⟨d, hd⟩ : ∃ d, j - i = d := ⟨_, rfl⟩
  induction d using Nat.strong_induction_on generalizing i j with
  | _ d ih =>
    rw [search_eq]
    split_ifs with h1 h2
    · have := ih (i + (j - i) / 2 - i) (by omega) i (i + (j - i) / 2) (by omega) rfl
      exact ⟨this.1, by omega⟩
    · have := ih (j - (i + (j - i) / 2)) (by omega) (i + (j - i) / 2) j (by omega) rfl
      exact ⟨by omega, this.2⟩
    · exact ⟨hij, le_refl _⟩

/-- The binary search keeps the query bracketed: entered with
`x[i] < q ≤ x[j]` it returns `r` with `x[r - 1] < q ≤ x[r]`. -/
theorem search_bracket (sp : Nat → spline_tuple α) (q : α) (i j : Nat) (hij : i < j)
    (hi : (sp i).x < q) (hj : q ≤ (sp j).x) :
    (sp (search sp q i j - 1)).x < q ∧ q ≤ (sp (search sp q i j)).x := by
  obtain ⟨d, hd⟩ : ∃ d, j - i = d := ⟨_, rfl⟩
  induction d using Nat.strong_induction_on generalizing i j with
  | _ d ih =>
    rw [search_eq]
    split_ifs with h1 h2
    · exact ih (i + (j - i) / 2 - i) (by omega) i (i + (j - i) / 2) (by omega) hi h2 rfl
    · exact ih (j - (i + (j - i) / 2)) (by omega) (i + (j - i) / 2) j (by omega)
        (not_le.mp h2) hj rfl
    · have : j - 1 = i := by omega
      rw [this]
      exact ⟨hi, hj⟩

/-- The binary search reads only the nodes strictly between its bounds. -/
theorem search_congr (sp sp2 : Nat → spline_tuple α) (q : α) (i j : Nat)
    (h : ∀ k, i < k → k < j → (sp k).x = (sp2 k).x) : search sp q i j = search sp2 q i j := by
  obtain ⟨d, hd⟩ : ∃ d, j - i = d := ⟨_, rfl⟩
  induction d using Nat.strong_induction_on generalizing i j with
  | _ d ih =>
    rw [search_eq sp, search_eq sp2]
    by_cases h1 : i + 1 < j
    · rw [if_pos h1, if_pos h1]
      rw [h (i + (j - i) / 2) (by omega) (by omega)]
      rw [ih (i + (j - i) / 2 - i) (by omega) i (i + (j - i) / 2)
          (fun k a b => h k a (by omega)) rfl,
        ih (j - (i + (j - i) / 2)) (by omega) (i + (j - i) / 2) j
          (fun k a b => h k (by omega) b) rfl]
    · rw [if_neg h1, if_neg h1]

/-- The Horner form of line 121 is the cubic of the specification at the offset
from the node of the segment. -/
theorem horner_eq_cubic_at (t : spline_tuple α) (q : α) : horner t q = cubic_at t (q - t.x) := by
  simp only [horner, cubic_at]
  ring

/-- On increasing nodes, later nodes are larger. -/
theorem increasing_lt {x : Nat → α} {n : Nat} (hx : increasing x n) (i j : Nat) (hij : i < j)
    (hj : j < n) : x i < x j := by
  induction j with
  | zero => omega
  | succ j ih =>
    have h1 := hx j (by omega)
    rcases Nat.lt_or_ge i j with h | h
    · exact lt_trans (ih h (by omega)) h1
    · have : i = j := by omega
      rw [this]; exact h1

/-- The segment that `f` evaluates lies in `[1, n - 1]`. -/
theorem segment_index_bounds (sp : Nat → spline_tuple α) (n : Nat) (q : α) (hn : 2 ≤ n) :
    1 ≤ segment_index sp n q ∧ segment_index sp n q ≤ n - 1 := by
  unfold segment_index
  split_ifs with h1 h2
  · omega
  · omega
  · have := search_bounds sp q 0 (n - 1) (by omega)
    omega

/-- At a node of increasing nodes `f` evaluates the segment `max i 1`: segment 1
at `x[0]` and segment `i` at every other node. -/
theorem segment_index_node (sp : Nat → spline_tuple α) (x : Nat → α) (n : Nat) (hn : 2 ≤ n)
    (hx : increasing x n) (hsp : ∀ j, j < n → (sp j).x = x j) (i : Nat) (hi : i < n) :
    segment_index sp n (x i) = if i = 0 then 1 else i := by
  unfold segment_index
  rw [hsp 0 (by omega), hsp (n - 1) (by omega)]
  by_cases h0 : i = 0
  · subst h0; simp
  · have l0 : x 0 < x i := increasing_lt hx 0 i (by omega) hi
    rw [if_neg (not_le.mpr l0), if_neg h0]
    by_cases hl : i = n - 1
    · rw [← hl]; simp
    · have l1 : x i < x (n - 1) := increasing_lt hx i (n - 1) (by omega) (by omega)
      rw [if_neg (not_le.mpr l1)]
      have hb := search_bounds sp (x i) 0 (n - 1) (by omega)
      have hk := search_bracket sp (x i) 0 (n - 1) (by omega)
        (by rw [hsp 0 (by omega)]; exact l0) (by rw [hsp (n - 1) (by omega)]; exact l1.le)
      generalize search sp (x i) 0 (n - 1) = r at hb hk
      rw [hsp r (by omega), hsp (r - 1) (by omega)] at hk
      by_contra hne
      rcases Nat.lt_or_gt_of_ne hne with h | h
      · have := increasing_lt hx r i h hi
        exact absurd hk.2 (not_le.mpr this)
      · rcases Nat.lt_or_ge i (r - 1) with h3 | h3
        · have := increasing_lt hx i (r - 1) h3 (by omega)
          exact absurd hk.1 (not_lt.mpr this.le)
        · have : i = r - 1 := by omega
          rw [← this] at hk
          exact lt_irrefl _ hk.1

/-- On a non-null `splines`, `f` is the Horner evaluation of the selected segment. -/
theorem f_of_splines (self : cubic_spline α) (sp : Nat → spline_tuple α)
    (h : self.splines = some sp) (q : α) :
    self.f q = some (horner (sp (segment_index sp self.n q)) q) := by
  simp [cubic_spline.f, h]

/-- The cubic of segment `j` takes the value `y[j - 1]` at the node `x[j - 1]`,
whatever the `c` coefficients are. -/
theorem Fitted.left_value {x y : Nat → α} {n : Nat} {s : Nat → spline_tuple α}
    {al be : Nat → α} (F : Fitted x y n s al be) (hx : increasing x n) (j : Nat)
    (h1 : 1 ≤ j) (hj : j < n) : horner (s j) (x (j - 1)) = y (j - 1) := by
  obtain ⟨ed, eb⟩ := F.bd j h1 hj
  obtain ⟨ex, ea⟩ := F.node j hj
  have hh : x j - x (j - 1) ≠ 0 := by
    have := increasing_lt hx (j - 1) j (by omega) hj
    exact sub_ne_zero.mpr this.ne.symm
  simp only [horner]
  rw [ed, eb, ex, ea]
  field_simp
  ring

/-- The cubic of segment `j` takes the value `y[j]` at its own node. -/
theorem Fitted.right_value {x y : Nat → α} {n : Nat} {s : Nat → spline_tuple α}
    {al be : Nat → α} (F : Fitted x y n s al be) (j : Nat) (hj : j < n) :
    horner (s j) (x j) = y j := by
  obtain ⟨ex, ea⟩ := F.node j hj
  simp [horner, ex, ea]

/-! ## The stored model is determined by the input -/

theorem spline_tuple_eq (t u : spline_tuple α) (ha : t.a = u.a) (hb : t.b = u.b)
    (hc : t.c = u.c) (hd : t.d = u.d) (hx : t.x = u.x) : t = u := by
  cases t; cases u; simp_all

theorem Fitted.al_unique {x y : Nat → α} {n : Nat} {s s2 : Nat → spline_tuple α}
    {al be al2 be2 : Nat → α} (F : Fitted x y n s al be) (G : Fitted x y n s2 al2 be2)
    (i : Nat) (hi : i ≤ n - 2) : al i = al2 i ∧ be i = be2 i := by
  induction i with
  | zero => rw [F.al_zero, G.al_zero, F.be_zero, G.be_zero]; exact ⟨rfl, rfl⟩
  | succ i ih =>
    obtain ⟨e1, e2⟩ := ih (by omega)
    obtain ⟨a1, b1⟩ := F.sweep (i + 1) (by omega) hi
    obtain ⟨a2, b2⟩ := G.sweep (i + 1) (by omega) hi
    simp only [Nat.add_sub_cancel] at a1 b1 a2 b2
    rw [a1, a2, b1, b2, e1, e2]; exact ⟨rfl, rfl⟩

theorem Fitted.c_unique {x y : Nat → α} {n : Nat} {s s2 : Nat → spline_tuple α}
    {al be al2 be2 : Nat → α} (F : Fitted x y n s al be) (G : Fitted x y n s2 al2 be2)
    (hn : 2 ≤ n) (j : Nat) (hj : j < n) : (s j).c = (s2 j).c := by
  have key : ∀ k, k ≤ n - 1 → (s (n - 1 - k)).c = (s2 (n - 1 - k)).c := by
    intro k
    induction k with
    | zero => intro _; simp [F.c_last, G.c_last]
    | succ k ih =>
      intro hk
      have e := ih (by omega)
      have hi : n - 1 - (k + 1) + 1 = n - 1 - k := by omega
      obtain ⟨u1, u2⟩ := F.al_unique G (n - 1 - (k + 1)) (by omega)
      rw [F.back_zero _ (by omega), G.back_zero _ (by omega), hi, e, u1, u2]
  have := key (n - 1 - j) (by omega)
  have hj2 : n - 1 - (n - 1 - j) = j := by omega
  rwa [hj2] at this

/-- Two arrays stored by `build_spline` for the same input hold the same
segments `1, ..., n - 1` and the same first node. -/
theorem Fitted.unique {x y : Nat → α} {n : Nat} {s s2 : Nat → spline_tuple α}
    {al be al2 be2 : Nat → α} (F : Fitted x y n s al be) (G : Fitted x y n s2 al2 be2)
    (hn : 2 ≤ n) : (∀ j, 1 ≤ j → j < n → s j = s2 j) ∧ (s 0).x = (s2 0).x := by
  constructor
  · intro j h1 hj
    obtain ⟨fx, fa⟩ := F.node j hj
    obtain ⟨gx, ga⟩ := G.node j hj
    obtain ⟨fd, fb⟩ := F.bd j h1 hj
    obtain ⟨gd, gb⟩ := G.bd j h1 hj
    have c1 := F.c_unique G hn j hj
    have c0 := F.c_unique G hn (j - 1) (by omega)
    apply spline_tuple_eq
    · rw [fa, ga]
    · rw [fb, gb, c1, c0]
    · exact c1
    · rw [fd, gd, c1, c0]
    · rw [fx, gx]
  · rw [(F.node 0 (by omega)).1, (G.node 0 (by omega)).1]

/-- The value of `f` after `build_spline(x, y, n)` depends on `(x, y, n)` only:
not on the object the method was called on, nor on the fresh storage. -/
theorem build_spline_f_indep (self self2 : cubic_spline α) (x y : Nat → α) (n : Nat)
    (m m2 : fresh_mem α) (hn : 2 ≤ n) (q : α) :
    (self.build_spline x y n m).f q = (self2.build_spline x y n m2).f q := by
  obtain ⟨s, al, be, hs, hsn, F⟩ := build_spline_fitted self x y n m hn
  obtain ⟨s2, al2, be2, hs2, hsn2, G⟩ := build_spline_fitted self2 x y n m2 hn
  obtain ⟨U, U0⟩ := F.unique G hn
  rw [f_of_splines _ s hs, f_of_splines _ s2 hs2, hsn, hsn2]
  have hidx : segment_index s n q = segment_index s2 n q := by
    unfold segment_index
    rw [U0, U (n - 1) (by omega) (by omega),
      search_congr s s2 q 0 (n - 1) (fun k a b => by rw [U k a (by omega)])]
  have hb := segment_index_bounds s2 n q hn
  rw [hidx, U _ hb.1 (by omega)]

/-! ## Derivatives of a segment -/

/-- The first derivative of the cubic of a segment anchored at `a`. -/
theorem cubic_at_hasDerivAt (T : spline_tuple ℝ) (a t : ℝ) :
    HasDerivAt (fun u => cubic_at T (u - a)) (T.b + T.c * (t - a) + T.d / 2 * (t - a) ^ 2) t := by
  have h1 : HasDerivAt (fun u : ℝ => u - a) 1 t := (hasDerivAt_id t).sub_const a
  have h := (((hasDerivAt_const t T.a).add (h1.const_mul T.b)).add
    ((h1.pow 2).const_mul (T.c / 2))).add ((h1.pow 3).const_mul (T.d / 6))
  unfold cubic_at
  convert h using 1
  simp
  ring

theorem cubic_at_deriv (T : spline_tuple ℝ) (a : ℝ) :
    deriv (fun u => cubic_at T (u - a)) =
      fun t => T.b + T.c * (t - a) + T.d / 2 * (t - a) ^ 2 :=
  funext fun t => (cubic_at_hasDerivAt T a t).deriv

/-- The second derivative of the cubic of a segment anchored at `a`. -/
theorem cubic_at_deriv2 (T : spline_tuple ℝ) (a t : ℝ) :
    deriv (deriv (fun u => cubic_at T (u - a))) t = T.c + T.d * (t - a) := by
  rw [cubic_at_deriv]
  have h1 : HasDerivAt (fun u : ℝ => u - a) 1 t := (hasDerivAt_id t).sub_const a
  have h := ((hasDerivAt_const t T.b).add (h1.const_mul T.c)).add
    ((h1.pow 2).const_mul (T.d / 2))
  have h2 : HasDerivAt (fun t => T.b + T.c * (t - a) + T.d / 2 * (t - a) ^ 2)
      (T.c + T.d * (t - a)) t := by
    convert h using 1
    simp
    ring
  exact h2.deriv

/-! ## The claims on the spline -/

/-- C1. Interpolation: for `n ≥ 2` and increasing nodes, after
`build_spline(x, y, n)` the evaluator returns `y[i]` at every node `x[i]`,
`0 ≤ i < n`, the first node (evaluated through segment 1) and the last included. -/
theorem C1_interpolation (self : cubic_spline α) (x y : Nat → α) (n : Nat) (m : fresh_mem α)
    (hn : 2 ≤ n) (hx : increasing x n) (i : Nat) (hi : i < n) :
    (self.build_spline x y n m).f (x i) = some (y i) := by
  obtain ⟨s, al, be, hs, hsn, F⟩ := build_spline_fitted self x y n m hn
  rw [f_of_splines _ s hs, hsn,
    segment_index_node s x n hn hx (fun j hj => (F.node j hj).1) i hi]
  by_cases h0 : i = 0
  · subst h0
    rw [if_pos rfl]
    exact congrArg some (F.left_value hx 1 (le_refl _) (by omega))
  · rw [if_neg h0]
    exact congrArg some (F.right_value i hi)

/-- The spline of the specification: nodes `[0, 1, 2, 3]`, values `[0, 1, 0, 1]`. -/
theorem C1_interpolation_witness :
    2 ≤ 4 ∧ increasing (arr [0, 1, 2, 3] : Nat → ℚ) 4 ∧ 2 < 4 ∧
      ((new_cubic_spline 0).build_spline (arr [0, 1, 2, 3]) (arr [0, 1, 0, 1]) 4
        (mem_const (7 : ℚ))).f (arr [0, 1, 2, 3] 2) = some (arr [0, 1, 0, 1] 2) :=
  ⟨by decide, by decide, by decide,
    C1_interpolation _ _ _ 4 _ (by decide) (by decide) 2 (by decide)⟩

/-- The nodes `[0, 1, 2, 3]` of the specification, as real numbers, are increasing. -/
theorem increasing_real_nodes : increasing (arr [0, 1, 2, 3] : Nat → ℝ) 4 := by
  intro i hi
  have : i < 3 := hi
  interval_cases i <;> norm_num [arr]

/-- C2. Smoothness: for `n ≥ 3` and increasing nodes, the cubic pieces of
adjacent segments stored by `build_spline` have the same value, the same first
derivative and the same second derivative at every interior node `x[i]`,
`1 ≤ i ≤ n - 2`. -/
theorem C2_smoothness (self : cubic_spline ℝ) (x y : Nat → ℝ) (n : Nat) (m : fresh_mem ℝ)
    (hn : 3 ≤ n) (hx : increasing x n) :
    ∃ s, (self.build_spline x y n m).splines = some s ∧
      ∀ i, 1 ≤ i → i ≤ n - 2 →
        piece s x i (x i) = piece s x (i + 1) (x i) ∧
        deriv (piece s x i) (x i) = deriv (piece s x (i + 1)) (x i) ∧
        deriv (deriv (piece s x i)) (x i) = deriv (deriv (piece s x (i + 1))) (x i) := by
  obtain ⟨s, al, be, hs, -, F⟩ := build_spline_fitted self x y n m (by omega)
  refine ⟨s, hs, fun i h1 h2 => ?_⟩
  have hh : x (i + 1) - x i ≠ 0 :=
    sub_ne_zero.mpr (increasing_lt hx i (i + 1) (by omega) (by omega)).ne.symm
  have hh0 : x i - x (i - 1) ≠ 0 :=
    sub_ne_zero.mpr (increasing_lt hx (i - 1) i (by omega) (by omega)).ne.symm
  obtain ⟨ed, eb⟩ := F.bd (i + 1) (by omega) (by omega)
  obtain ⟨-, eb0⟩ := F.bd i h1 (by omega)
  simp only [Nat.add_sub_cancel] at ed eb
  have tri := F.tridiagonal hx i h1 h2
  have hp : ∀ j, piece s x j = fun u => cubic_at (s j) (u - x j) := fun j => rfl
  refine ⟨?_, ?_, ?_⟩
  · have l := F.left_value hx (i + 1) (by omega) (by omega)
    have r := F.right_value i (by omega)
    rw [horner_eq_cubic_at, (F.node _ (by omega)).1] at l r
    simp only [Nat.add_sub_cancel] at l
    simp only [piece]
    rw [l, r]
  · rw [hp, hp, cubic_at_deriv, cubic_at_deriv]
    simp only [sub_self]
    rw [eb, eb0, ed]
    have e : x i - x (i + 1) = -(x (i + 1) - x i) := by ring
    rw [e]
    have hd : ((s (i + 1)).c - (s i).c) / (x (i + 1) - x i) * (x (i + 1) - x i) =
        (s (i + 1)).c - (s i).c := div_mul_cancel₀ _ hh
    generalize ((s (i + 1)).c - (s i).c) / (x (i + 1) - x i) = dd at hd ⊢
    generalize (y (i + 1) - y i) / (x (i + 1) - x i) = D1 at tri ⊢
    generalize (y i - y (i - 1)) / (x i - x (i - 1)) = D0 at tri ⊢
    linear_combination (1 / 6) * tri - ((x (i + 1) - x i) / 2) * hd
  · rw [hp, hp, cubic_at_deriv2, cubic_at_deriv2, ed]
    field_simp
    ring

/-- The spline of the specification satisfies the smoothness conditions. -/
theorem C2_smoothness_witness :
    3 ≤ 4 ∧ increasing (arr [0, 1, 2, 3] : Nat → ℝ) 4 ∧
    ∃ s, ((new_cubic_spline 0).build_spline (arr [0, 1, 2, 3]) (arr [0, 1, 0, 1]) 4
        (mem_const (7 : ℝ))).splines = some s ∧
      ∀ i, 1 ≤ i → i ≤ 4 - 2 →
        piece s (arr [0, 1, 2, 3]) i (arr [0, 1, 2, 3] i) =
          piece s (arr [0, 1, 2, 3]) (i + 1) (arr [0, 1, 2, 3] i) ∧
        deriv (piece s (arr [0, 1, 2, 3]) i) (arr [0, 1, 2, 3] i) =
          deriv (piece s (arr [0, 1, 2, 3]) (i + 1)) (arr [0, 1, 2, 3] i) ∧
        deriv (deriv (piece s (arr [0, 1, 2, 3]) i)) (arr [0, 1, 2, 3] i) =
          deriv (deriv (piece s (arr [0, 1, 2, 3]) (i + 1))) (arr [0, 1, 2, 3] i) :=
  ⟨by decide, increasing_real_nodes,
    C2_smoothness _ _ _ 4 _ (by decide) increasing_real_nodes⟩

/-- C4. Clamping: on a spline built from `n ≥ 2` nodes with `x[0] < x[n - 1]`
(as increasing nodes have), a query `q ≤ x[0]` is evaluated as the cubic
`a + b·dx + c/2·dx² + d/6·dx³` of segment 1 with `dx = q - x[1]`, and a query
`q ≥ x[n - 1]` as the cubic of segment `n - 1` with `dx = q - x[n - 1]`. -/
theorem C4_clamping (self : cubic_spline α) (x y : Nat → α) (n : Nat) (m : fresh_mem α)
    (hn : 2 ≤ n) (hx : x 0 < x (n - 1)) :
    ∃ s, (self.build_spline x y n m).splines = some s ∧
      (∀ q, q ≤ x 0 →
        (self.build_spline x y n m).f q = some (cubic_at (s 1) (q - x 1))) ∧
      (∀ q, x (n - 1) ≤ q →
        (self.build_spline x y n m).f q = some (cubic_at (s (n - 1)) (q - x (n - 1)))) := by
  obtain ⟨s, al, be, hs, hsn, F⟩ := build_spline_fitted self x y n m hn
  have hsx : ∀ j, j < n → (s j).x = x j := fun j hj => (F.node j hj).1
  refine ⟨s, hs, ?_, ?_⟩
  · intro q hq
    have hi : segment_index s n q = 1 := by
      unfold segment_index
      rw [hsx 0 (by omega), if_pos hq]
    rw [f_of_splines _ s hs, hsn, hi, horner_eq_cubic_at, hsx 1 (by omega)]
  · intro q hq
    have hi : segment_index s n q = n - 1 := by
      unfold segment_index
      rw [hsx 0 (by omega), hsx (n - 1) (by omega),
        if_neg (not_le.mpr (lt_of_lt_of_le hx hq)), if_pos hq]
    rw [f_of_splines _ s hs, hsn, hi, horner_eq_cubic_at, hsx (n - 1) (by omega)]

/-- The spline of the specification clamps to segment 1 and to segment 3. -/
theorem C4_clamping_witness :
    2 ≤ 4 ∧ (arr [0, 1, 2, 3] : Nat → ℚ) 0 < arr [0, 1, 2, 3] (4 - 1) ∧
    ∃ s, ((new_cubic_spline 0).build_spline (arr [0, 1, 2, 3]) (arr [0, 1, 0, 1]) 4
        (mem_const (7 : ℚ))).splines = some s ∧
      (∀ q, q ≤ arr [0, 1, 2, 3] 0 →
        ((new_cubic_spline 0).build_spline (arr [0, 1, 2, 3]) (arr [0, 1, 0, 1]) 4
          (mem_const (7 : ℚ))).f q = some (cubic_at (s 1) (q - arr [0, 1, 2, 3] 1))) ∧
      (∀ q, arr [0, 1, 2, 3] (4 - 1) ≤ q →
        ((new_cubic_spline 0).build_spline (arr [0, 1, 2, 3]) (arr [0, 1, 0, 1]) 4
          (mem_const (7 : ℚ))).f q =
            some (cubic_at (s (4 - 1)) (q - arr [0, 1, 2, 3] (4 - 1)))) :=
  ⟨by decide, by decide, C4_clamping _ _ _ 4 _ (by decide) (by decide)⟩

/-- C5. Unbuilt spline: on a freshly constructed `cubic_spline`, whatever its
uninitialised member `n` holds, `f(q)` is the NaN sentinel for every query `q`. -/
theorem C5_unbuilt_nan (n0 : Nat) (q : α) :
    (new_cubic_spline n0 : cubic_spline α).f q = none := rfl

/-- C9. Rebuild discards the prior model: for `n2 ≥ 2`, the value `f(q)` after
`build_spline(x1, y1, n1)` followed by `build_spline(x2, y2, n2)` on one object is
the value after `build_spline(x2, y2, n2)` on a freshly constructed object,
whatever the storage of either build held before it was written. -/
theorem C9_rebuild_discards (self : cubic_spline α) (x1 y1 x2 y2 : Nat → α) (n1 n2 n0 : Nat)
    (m1 m2 m3 : fresh_mem α) (hn2 : 2 ≤ n2) (q : α) :
    ((self.build_spline x1 y1 n1 m1).build_spline x2 y2 n2 m2).f q =
      ((new_cubic_spline n0).build_spline x2 y2 n2 m3).f q :=
  build_spline_f_indep _ _ x2 y2 n2 m2 m3 hn2 q

/-- A rebuild on the nodes of the specification over an earlier model. -/
theorem C9_rebuild_discards_witness :
    2 ≤ 4 ∧
    (((new_cubic_spline 5).build_spline (arr [0, 2, 3]) (arr [4, 4, 1]) 3
        (mem_const (7 : ℚ))).build_spline (arr [0, 1, 2, 3]) (arr [0, 1, 0, 1]) 4
        (mem_const 9)).f (1 / 2) =
      ((new_cubic_spline 0).build_spline (arr [0, 1, 2, 3]) (arr [0, 1, 0, 1]) 4
        (mem_const 11)).f (1 / 2) :=
  ⟨by decide, C9_rebuild_discards _ _ _ _ _ 3 4 0 _ _ _ (by decide) _⟩

/-- C10. Thomas algorithm: for `n ≥ 3` and increasing nodes, the `c`
coefficients stored by `build_spline` satisfy `c[0] = c[n - 1] = 0` and, for
`1 ≤ i ≤ n - 2`, `h_i c[i-1] + 2 (h_i + h_{i+1}) c[i] + h_{i+1} c[i+1] =
6 ((y[i+1] - y[i]) / h_{i+1} - (y[i] - y[i-1]) / h_i)` with `h_i = x[i] - x[i-1]`. -/
theorem C10_thomas (self : cubic_spline α) (x y : Nat → α) (n : Nat) (m : fresh_mem α)
    (hn : 3 ≤ n) (hx : increasing x n) :
    ∃ s, (self.build_spline x y n m).splines = some s ∧
      (s 0).c = 0 ∧ (s (n - 1)).c = 0 ∧
      ∀ i, 1 ≤ i → i ≤ n - 2 →
        (x i - x (i - 1)) * (s (i - 1)).c +
            2 * ((x i - x (i - 1)) + (x (i + 1) - x i)) * (s i).c +
            (x (i + 1) - x i) * (s (i + 1)).c =
          6 * ((y (i + 1) - y i) / (x (i + 1) - x i) - (y i - y (i - 1)) / (x i - x (i - 1))) := by
  obtain ⟨s, al, be, hs, -, F⟩ := build_spline_fitted self x y n m (by omega)
  exact ⟨s, hs, F.c_first, F.c_last, fun i h1 h2 => F.tridiagonal hx i h1 h2⟩

/-- The spline of the specification solves its tridiagonal system. -/
theorem C10_thomas_witness :
    3 ≤ 4 ∧ increasing (arr [0, 1, 2, 3] : Nat → ℚ) 4 ∧
    ∃ s, ((new_cubic_spline 0).build_spline (arr [0, 1, 2, 3]) (arr [0, 1, 0, 1]) 4
        (mem_const (7 : ℚ))).splines = some s ∧
      (s 0).c = 0 ∧ (s (4 - 1)).c = 0 ∧
      ∀ i, 1 ≤ i → i ≤ 4 - 2 →
        (arr [0, 1, 2, 3] i - arr [0, 1, 2, 3] (i - 1)) * (s (i - 1)).c +
            2 * ((arr [0, 1, 2, 3] i - arr [0, 1, 2, 3] (i - 1)) +
              (arr [0, 1, 2, 3] (i + 1) - arr [0, 1, 2, 3] i)) * (s i).c +
            (arr [0, 1, 2, 3] (i + 1) - arr [0, 1, 2, 3] i) * (s (i + 1)).c =
          6 * ((arr [0, 1, 0, 1] (i + 1) - arr [0, 1, 0, 1] i) /
              (arr [0, 1, 2, 3] (i + 1) - arr [0, 1, 2, 3] i) -
            (arr [0, 1, 0, 1] i - arr [0, 1, 0, 1] (i - 1)) /
              (arr [0, 1, 2, 3] i - arr [0, 1, 2, 3] (i - 1))) :=
  ⟨by decide, by decide, C10_thomas _ _ _ 4 _ (by decide) (by decide)⟩

/-! ## The loop of `R_K` -/

/-- A sequence indexed by `0, ..., K` is its entry 0 followed by the entries
`1, ..., K`. -/
theorem range_succ_map {β : Type} (g : Nat → β) (K : Nat) :
    (List.range (K + 1)).map g = g 0 :: (List.range K).map (fun k => g (k + 1)) := by
  rw [List.range_succ_eq_map, List.map_cons, List.map_map]
  rfl

/-- If the loop condition holds exactly `K` times and the fuel allows `K`
iterations, the loop ends in the `K`-th iterate of the step and has appended
the first `K` states to the two vectors. -/
theorem R_K_loop_run (sin cos : α → α) (end_ h lambda N : α) (K : Nat) :
    ∀ (fuel : Nat) (i : α) (st : α × α) (out : List α × List α), K ≤ fuel →
      (∀ k, k < K → i + (k : α) * h < end_) → ¬ (i + (K : α) * h < end_) →
      R_K_loop sin cos end_ h lambda N fuel i st out =
        some ((R_K_step sin cos h lambda N)^[K] st,
          (out.1 ++ (List.range K).map (fun k => ((R_K_step sin cos h lambda N)^[k] st).1),
           out.2 ++ (List.range K).map (fun k => ((R_K_step sin cos h lambda N)^[k] st).2))) := by
  induction K with
  | zero =>
    intro fuel i st out _ _ hK
    have hi : ¬ i < end_ := by simpa using hK
    cases fuel <;> simp [R_K_loop, hi]
  | succ K ih =>
    intro fuel i st out hf hlt hK
    obtain ⟨fuel, rfl⟩ : ∃ f, fuel = f + 1 := ⟨fuel - 1, by omega⟩
    have hi : i < end_ := by simpa using hlt 0 (by omega)
    rw [R_K_loop, if_pos hi, ih fuel (i + h) _ _ (by omega)]
    · rw [range_succ_map, range_succ_map]
      simp [Function.iterate_succ_apply]
    · intro k hk
      have := hlt (k + 1) (by omega)
      push_cast at this
      linarith
    · intro hc
      apply hK
      push_cast
      linarith

/-- Whenever the loop ends, it has run some number `K` of iterations: it ends
in the `K`-th iterate of the step and has appended the first `K` states. -/
theorem R_K_loop_some (sin cos : α → α) (end_ h lambda N : α) (fuel : Nat) :
    ∀ (i : α) (st st2 : α × α) (out out2 : List α × List α),
      R_K_loop sin cos end_ h lambda N fuel i st out = some (st2, out2) →
      ∃ K, st2 = (R_K_step sin cos h lambda N)^[K] st ∧
        out2.1 = out.1 ++
          (List.range K).map (fun k => ((R_K_step sin cos h lambda N)^[k] st).1) ∧
        out2.2 = out.2 ++
          (List.range K).map (fun k => ((R_K_step sin cos h lambda N)^[k] st).2) := by
  induction fuel with
  | zero =>
    intro i st st2 out out2 hr
    by_cases hi : i < end_
    · simp [R_K_loop, hi] at hr
    · simp only [R_K_loop, if_neg hi, Option.some.injEq, Prod.mk.injEq] at hr
      exact ⟨0, by simp [hr.1.symm, hr.2.symm]⟩
  | succ fuel ih =>
    intro i st st2 out out2 hr
    by_cases hi : i < end_
    · rw [R_K_loop, if_pos hi] at hr
      obtain ⟨K, e1, e2, e3⟩ := ih _ _ _ _ _ hr
      refine ⟨K + 1, ?_, ?_, ?_⟩
      · rw [e1, Function.iterate_succ_apply]
      · rw [e2, range_succ_map]; simp [Function.iterate_succ_apply]
      · rw [e3, range_succ_map]; simp [Function.iterate_succ_apply]
    · simp only [R_K_loop, if_neg hi, Option.some.injEq, Prod.mk.injEq] at hr
      exact ⟨0, by simp [hr.1.symm, hr.2.symm]⟩

/-- The body of the loop of `R_K` is the classical RK4 map. -/
theorem R_K_step_eq_rk4_map (sin cos : α → α) (h lambda N : α) (s : α × α) :
    R_K_step sin cos h lambda N s = rk4_map sin cos h lambda N s := by
  obtain ⟨x, v⟩ := s
  have hF : ∀ a b : α, rk4_F sin cos lambda N (a, b) = (b, func sin cos b a lambda N) := by
    intro a b
    simp [rk4_F, func]
  have hh : ∀ a : α, (1 / 2 : α) * a = a / 2 := fun a => by ring
  have h6 : ∀ a : α, (1 / 6 : α) * a = a / 6 := fun a => by ring
  simp only [R_K_step, rk4_map, hF, Prod.smul_mk, Prod.mk_add_mk, smul_eq_mul, hh, h6]

/-- For `h > 0` the loop condition `begin + k·h < end` holds exactly for the
`k` below `ceil((end - begin) / h)`. -/
theorem ceil_steps [FloorRing α] (begin end_ h : α) (hh : 0 < h) :
    (∀ k : Nat, k < ⌈(end_ - begin) / h⌉₊ → begin + (k : α) * h < end_) ∧
      ¬ (begin + ((⌈(end_ - begin) / h⌉₊ : Nat) : α) * h < end_) := by
  constructor
  · intro k hk
    have := (lt_div_iff₀ hh).mp (Nat.lt_ceil.mp hk)
    linarith
  · intro hc
    have h1 : (end_ - begin) / h ≤ (⌈(end_ - begin) / h⌉₊ : α) := Nat.le_ceil _
    have := (div_le_iff₀ hh).mp h1
    linarith

/-- With `h > 0` and fuel for `K = ceil((end - begin) / h)` iterations, `R_K`
returns: it appends to `res_v` the velocities of the first `K` iterates of the
step, and to `res` their positions followed by the velocity of the `K`-th. -/
theorem R_K_returns [FloorRing α] (sin cos : α → α) (fuel : Nat)
    (begin end_ h lambda x0dash N : α) (res res_v : List α) (hh : 0 < h)
    (hf : ⌈(end_ - begin) / h⌉₊ ≤ fuel) :
    R_K sin cos fuel begin end_ h lambda x0dash N res res_v =
      some (res ++ (List.range ⌈(end_ - begin) / h⌉₊).map
            (fun k => ((R_K_step sin cos h lambda N)^[k] (begin, x0dash)).1) ++
          [((R_K_step sin cos h lambda N)^[⌈(end_ - begin) / h⌉₊] (begin, x0dash)).2],
        res_v ++ (List.range ⌈(end_ - begin) / h⌉₊).map
            (fun k => ((R_K_step sin cos h lambda N)^[k] (begin, x0dash)).2)) := by
  obtain ⟨c1, c2⟩ := ceil_steps begin end_ h hh
  simp only [R_K, R_K_loop_run sin cos end_ h lambda N _ fuel begin (begin, x0dash)
    (res, res_v) hf c1 c2]

/-- For `begin < end` and `h > 0` the loop runs at least once. -/
theorem ceil_pos_of_lt [FloorRing α] (begin end_ h : α) (hbe : begin < end_) (hh : 0 < h) :
    0 < ⌈(end_ - begin) / h⌉₊ :=
  Nat.ceil_pos.mpr (div_pos (sub_pos.mpr hbe) hh)

/-- The iterate `k + 1` is one more step after the iterate `k`. -/
theorem iterate_succ_out {β : Type} (g : β → β) (k : Nat) (b : β) :
    g^[k + 1] b = g (g^[k] b) := by
  rw [Function.iterate_succ_apply]
  exact (Function.Commute.iterate_self g k).eq b

/-- Entry `k` of a recorded sequence of `K` iterates. -/
theorem recorded_get {β : Type} (g : Nat → β) (K k : Nat) (hk : k < K) (tail : List β) :
    ((List.range K).map g ++ tail)[k]? = some (g k) := by
  rw [List.getElem?_append_left (by simpa using hk)]
  simp [hk]

/-! ## The claims on the integrator -/

/-- C6. RK4 reference definition: for `begin < end` and `h > 0`, `R_K` returns
(given fuel for `ceil((end - begin) / h)` iterations); sample 0 is
`(begin, x0dash)`, and whenever the indices `k` and `k + 1` are both recorded,
sample `k + 1` is the classical RK4 map of the system `x' = v`,
`v' = -(lambda·v·cos(N·x) + sin(x))` applied to sample `k`. -/
theorem C6_rk4_reference [FloorRing α] (sin cos : α → α) (fuel : Nat)
    (begin end_ h lambda x0dash N : α) (hbe : begin < end_) (hh : 0 < h)
    (hf : ⌈(end_ - begin) / h⌉₊ ≤ fuel) :
    ∃ res res_v, R_K sin cos fuel begin end_ h lambda x0dash N [] [] = some (res, res_v) ∧
      res[0]? = some begin ∧ res_v[0]? = some x0dash ∧
      ∀ k, k + 1 < res_v.length →
        ∃ xk vk, res[k]? = some xk ∧ res_v[k]? = some vk ∧
          res[k + 1]? = some (rk4_map sin cos h lambda N (xk, vk)).1 ∧
          res_v[k + 1]? = some (rk4_map sin cos h lambda N (xk, vk)).2 := by
  have hpos := ceil_pos_of_lt begin end_ h hbe hh
  refine ⟨_, _, R_K_returns sin cos fuel begin end_ h lambda x0dash N [] [] hh hf, ?_, ?_, ?_⟩
  · rw [List.nil_append, recorded_get _ _ 0 hpos]
    rfl
  · rw [List.nil_append, ← List.append_nil (List.map _ _), recorded_get _ _ 0 hpos]
    rfl
  · intro k hk
    simp only [List.nil_append, List.length_map, List.length_range] at hk
    refine ⟨((R_K_step sin cos h lambda N)^[k] (begin, x0dash)).1,
      ((R_K_step sin cos h lambda N)^[k] (begin, x0dash)).2, ?_, ?_, ?_, ?_⟩
    · rw [List.nil_append, recorded_get _ _ k (by omega)]
    · rw [List.nil_append, ← List.append_nil (List.map _ _), recorded_get _ _ k (by omega)]
    · rw [List.nil_append, recorded_get _ _ (k + 1) hk, iterate_succ_out,
        ← R_K_step_eq_rk4_map]
    · rw [List.nil_append, ← List.append_nil (List.map _ _), recorded_get _ _ (k + 1) hk,
        iterate_succ_out, ← R_K_step_eq_rk4_map]

/-- Two iterations are enough for the run of the specification from 0 to 1 with
step 1/2. -/
theorem ceil_half_run : ⌈((1 : ℝ) - 0) / (1 / 2)⌉₊ ≤ 2 := by
  rw [Nat.ceil_le]
  norm_num

/-- The run of the specification, `R_K(0, 1, 0.5, 0, 0, 0)` on empty vectors, in
real arithmetic with the real sine and cosine: the state stays `(0, 0)`, the
loop runs for `i = 0` and `i = 1/2`, and the final velocity is appended to `res`. -/
theorem run_half : R_K Real.sin Real.cos 2 0 1 (1 / 2) 0 0 0 [] [] = some ([0, 0, 0], [0, 0]) := by
  have hs : R_K_step Real.sin Real.cos (1 / 2) 0 0 ((0 : ℝ), 0) = (0, 0) := by
    simp [R_K_step, func]
  have h1 : (0 : ℝ) < 1 := by norm_num
  have h2 : (0 : ℝ) + 1 / 2 < 1 := by norm_num
  have h3 : ¬ ((0 : ℝ) + 1 / 2 + 1 / 2 < 1) := by norm_num
  rw [R_K, R_K_loop, if_pos h1, hs, R_K_loop, if_pos h2, hs, R_K_loop, if_neg h3]
  rfl

/-- The run with the defaults of the form (`lambda = 3`, `x'(0) = 1`, `N = 3`) from 0
to 1 with step 1/2 follows the RK4 map. -/
theorem C6_rk4_reference_witness :
    (0 : ℝ) < 1 ∧ (0 : ℝ) < 1 / 2 ∧ ⌈((1 : ℝ) - 0) / (1 / 2)⌉₊ ≤ 2 ∧
    ∃ res res_v, R_K Real.sin Real.cos 2 0 1 (1 / 2) 3 1 3 [] [] = some (res, res_v) ∧
      res[0]? = some 0 ∧ res_v[0]? = some 1 ∧
      ∀ k, k + 1 < res_v.length →
        ∃ xk vk, res[k]? = some xk ∧ res_v[k]? = some vk ∧
          res[k + 1]? = some (rk4_map Real.sin Real.cos (1 / 2) 3 3 (xk, vk)).1 ∧
          res_v[k + 1]? = some (rk4_map Real.sin Real.cos (1 / 2) 3 3 (xk, vk)).2 :=
  ⟨by norm_num, by norm_num, ceil_half_run,
    C6_rk4_reference Real.sin Real.cos 2 0 1 (1 / 2) 3 1 3 (by norm_num) (by norm_num)
      ceil_half_run⟩

/-- C7, as stated, fails on the run of the specification: `R_K(0, 1, 0.5, 0, 0, 0)`
on empty vectors returns `res` with 3 entries and `res_v` with 2, so the two
sequences do not have the same length `ceil((end - begin) / h) = 2`. -/
theorem C7_counterexample :
    R_K Real.sin Real.cos 2 0 1 (1 / 2) 0 0 0 [] [] = some ([0, 0, 0], [0, 0]) ∧
      ¬ (([0, 0, 0] : List ℝ).length = ([0, 0] : List ℝ).length ∧
        ([0, 0, 0] : List ℝ).length = ⌈((1 : ℝ) - 0) / (1 / 2)⌉₊) := by
  refine ⟨run_half, ?_⟩
  simp

/-- C7, amended. Output length in exact arithmetic: for `begin < end` and `h > 0`,
`R_K` called on empty vectors returns (given fuel for `ceil((end - begin) / h)`
iterations);
`res_v` has exactly `ceil((end - begin) / h)` entries and `res` has one more;
the first entries are `res[0] = begin` and `res_v[0] = x0dash`. -/
theorem C7_output_length [FloorRing α] (sin cos : α → α) (fuel : Nat)
    (begin end_ h lambda x0dash N : α) (hbe : begin < end_) (hh : 0 < h)
    (hf : ⌈(end_ - begin) / h⌉₊ ≤ fuel) :
    ∃ res res_v, R_K sin cos fuel begin end_ h lambda x0dash N [] [] = some (res, res_v) ∧
      res_v.length = ⌈(end_ - begin) / h⌉₊ ∧ res.length = ⌈(end_ - begin) / h⌉₊ + 1 ∧
      res[0]? = some begin ∧ res_v[0]? = some x0dash := by
  have hpos := ceil_pos_of_lt begin end_ h hbe hh
  refine ⟨_, _, R_K_returns sin cos fuel begin end_ h lambda x0dash N [] [] hh hf, ?_, ?_, ?_, ?_⟩
  · simp
  · simp
  · rw [List.nil_append, recorded_get _ _ 0 hpos]
    rfl
  · rw [List.nil_append, ← List.append_nil (List.map _ _), recorded_get _ _ 0 hpos]
    rfl

/-- The run of the specification, `R_K(0, 1, 0.5, 0, 0, 0)`: 2 velocities, 3 entries
in `res`, both starting at 0. -/
theorem C7_output_length_witness :
    (0 : ℝ) < 1 ∧ (0 : ℝ) < 1 / 2 ∧ ⌈((1 : ℝ) - 0) / (1 / 2)⌉₊ ≤ 2 ∧
    ∃ res res_v, R_K Real.sin Real.cos 2 0 1 (1 / 2) 0 0 0 [] [] = some (res, res_v) ∧
      res_v.length = ⌈((1 : ℝ) - 0) / (1 / 2)⌉₊ ∧
      res.length = ⌈((1 : ℝ) - 0) / (1 / 2)⌉₊ + 1 ∧
      res[0]? = some 0 ∧ res_v[0]? = some 0 :=
  ⟨by norm_num, by norm_num, ceil_half_run,
    C7_output_length Real.sin Real.cos 2 0 1 (1 / 2) 0 0 0 (by norm_num) (by norm_num)
      ceil_half_run⟩

/-- C8. Trailing extra sample: whenever `R_K`, called on empty vectors, returns,
`res` is a sequence as long as `res_v` followed by exactly one more value, the
velocity state after the last step (`x0dash` when the loop body never ran); so
`res.size() = res_v.size() + 1`. -/
theorem C8_trailing_sample (sin cos : α → α) (fuel : Nat) (begin end_ h lambda x0dash N : α)
    (res res_v : List α)
    (hret : R_K sin cos fuel begin end_ h lambda x0dash N [] [] = some (res, res_v)) :
    res.length = res_v.length + 1 ∧
      (∃ xs, xs.length = res_v.length ∧
        res = xs ++
          [((R_K_step sin cos h lambda N)^[res_v.length] (begin, x0dash)).2]) ∧
      (res_v = [] → res = [x0dash]) := by
  unfold R_K at hret
  cases hl : R_K_loop sin cos end_ h lambda N fuel begin (begin, x0dash) ([], []) with
  | none => rw [hl] at hret; simp at hret
  | some r =>
    obtain ⟨st2, out2⟩ := r
    rw [hl] at hret
    simp only [Option.some.injEq, Prod.mk.injEq] at hret
    obtain ⟨K, e1, e2, e3⟩ := R_K_loop_some sin cos end_ h lambda N fuel _ _ _ _ _ hl
    obtain ⟨r1, r2⟩ := hret
    have hlen : res_v.length = K := by rw [← r2, e3]; simp
    have hres : res = (List.range K).map
        (fun k => ((R_K_step sin cos h lambda N)^[k] (begin, x0dash)).1) ++
        [((R_K_step sin cos h lambda N)^[K] (begin, x0dash)).2] := by
      rw [← r1, e2, e1]; simp
    refine ⟨by rw [hres, hlen]; simp, ⟨_, ?_, by rw [hlen]; exact hres⟩, ?_⟩
    · rw [hlen]; simp
    · intro hnil
      rw [hnil] at hlen
      rw [hres, ← hlen]
      rfl

/-- The run of the specification returns, with the final velocity behind its
two positions. -/
theorem C8_trailing_sample_witness :
    R_K Real.sin Real.cos 2 0 1 (1 / 2) 0 0 0 [] [] = some ([0, 0, 0], [0, 0]) ∧
    ([0, 0, 0] : List ℝ).length = ([0, 0] : List ℝ).length + 1 ∧
      (∃ xs, xs.length = ([0, 0] : List ℝ).length ∧
        ([0, 0, 0] : List ℝ) = xs ++
          [((R_K_step Real.sin Real.cos (1 / 2) 0 0)^[([0, 0] : List ℝ).length]
            ((0 : ℝ), 0)).2]) ∧
      (([0, 0] : List ℝ) = [] → ([0, 0, 0] : List ℝ) = [0]) :=
  ⟨run_half, C8_trailing_sample _ _ 2 0 1 (1 / 2) 0 0 0 _ _ run_half⟩

/-! ## The pivots of the forward sweep -/

/-- An entry of `alpha` below the current index of the forward sweep already
holds its final value. -/
theorem build_sweep_stable (x y : Nat → α) (m : fresh_mem α) (k K j : Nat) (hj : j ≤ k)
    (hk : k ≤ K) : (build_sweep x y m K).1 j = (build_sweep x y m k).1 j := by
  obtain ⟨d, rfl⟩ : ∃ d, K = k + d := ⟨K - k, by omega⟩
  exact (sweep_loop_stable x y _ k d j hj).1

/-- The iteration `i` of the forward sweep stores `alpha[i] = -B / z` with the
pivot `z` of that iteration. -/
theorem build_sweep_alpha (x y : Nat → α) (m : fresh_mem α) (i : Nat) (h1 : 1 ≤ i) :
    (build_sweep x y m i).1 i =
      -(x (i + 1) - x i) / pivot x i (build_sweep x y m (i - 1)).1 := by
  obtain ⟨i0, rfl⟩ : ∃ i0, i = i0 + 1 := ⟨i - 1, by omega⟩
  simp [build_sweep, sweep_loop, sweep_step, pivot]

/-- C14. No zero pivot: for `n ≥ 3` and increasing nodes, every pivot
`z = A * alpha[i - 1] + C` computed by the forward sweep of `build_spline`,
`1 ≤ i ≤ n - 2`, is positive (it is the divisor of `alpha[i] = -B / z`), every
sweep coefficient satisfies `-1/2 < alpha[i] ≤ 0`, and every step
`h_j = x[j] - x[j - 1]`, `1 ≤ j ≤ n - 1`, is non-zero; the coefficients are the
ones the backward substitution of `build_spline` uses. -/
theorem C14_no_zero_pivot (self : cubic_spline α) (x y : Nat → α) (n : Nat) (m : fresh_mem α)
    (hn : 3 ≤ n) (hx : increasing x n) :
    (∀ i, 1 ≤ i → i ≤ n - 2 →
      0 < pivot x i (build_sweep x y m (i - 1)).1 ∧
      (build_sweep x y m i).1 i =
        -(x (i + 1) - x i) / pivot x i (build_sweep x y m (i - 1)).1) ∧
    (∀ i, i ≤ n - 2 →
      -(1 / 2) < (build_sweep x y m (n - 2)).1 i ∧ (build_sweep x y m (n - 2)).1 i ≤ 0) ∧
    (∀ j, 1 ≤ j → j < n → x j - x (j - 1) ≠ 0) ∧
    ∃ s, (self.build_spline x y n m).splines = some s ∧
      ∀ i, 1 ≤ i → i ≤ n - 2 →
        (s i).c = (build_sweep x y m (n - 2)).1 i * (s (i + 1)).c +
          (build_sweep x y m (n - 2)).2 i := by
  obtain ⟨s, hs, -, F⟩ := build_spline_fitted_sweep self x y n m (by omega)
  refine ⟨fun i h1 h2 => ⟨?_, build_sweep_alpha x y m i h1⟩,
    fun i hi => F.al_bound hx i hi, ?_, s, hs, F.back⟩
  · have hp := F.pivot_pos hx i h1 h2
    rw [build_sweep_stable x y m (i - 1) (n - 2) (i - 1) (le_refl _) (by omega)] at hp
    exact hp
  · intro j h1 hj
    have := increasing_lt hx (j - 1) j (by omega) hj
    exact sub_ne_zero.mpr this.ne.symm

/-- The nodes `[0, 1, 2, 3]` of the specification have positive pivots. -/
theorem C14_no_zero_pivot_witness :
    3 ≤ 4 ∧ increasing (arr [0, 1, 2, 3] : Nat → ℚ) 4 ∧
    (∀ i, 1 ≤ i → i ≤ 4 - 2 →
      0 < pivot (arr [0, 1, 2, 3]) i
        (build_sweep (arr [0, 1, 2, 3]) (arr [0, 1, 0, 1]) (mem_const (7 : ℚ)) (i - 1)).1 ∧
      (build_sweep (arr [0, 1, 2, 3]) (arr [0, 1, 0, 1]) (mem_const (7 : ℚ)) i).1 i =
        -(arr [0, 1, 2, 3] (i + 1) - arr [0, 1, 2, 3] i) /
          pivot (arr [0, 1, 2, 3]) i
            (build_sweep (arr [0, 1, 2, 3]) (arr [0, 1, 0, 1]) (mem_const (7 : ℚ)) (i - 1)).1) ∧
    (∀ i, i ≤ 4 - 2 →
      -(1 / 2) <
          (build_sweep (arr [0, 1, 2, 3]) (arr [0, 1, 0, 1]) (mem_const (7 : ℚ)) (4 - 2)).1 i ∧
        (build_sweep (arr [0, 1, 2, 3]) (arr [0, 1, 0, 1]) (mem_const (7 : ℚ)) (4 - 2)).1 i ≤
          0) ∧
    (∀ j, 1 ≤ j → j < 4 → (arr [0, 1, 2, 3] : Nat → ℚ) j - arr [0, 1, 2, 3] (j - 1) ≠ 0) ∧
    ∃ s, ((new_cubic_spline 0).build_spline (arr [0, 1, 2, 3]) (arr [0, 1, 0, 1]) 4
        (mem_const (7 : ℚ))).splines = some s ∧
      ∀ i, 1 ≤ i → i ≤ 4 - 2 →
        (s i).c =
          (build_sweep (arr [0, 1, 2, 3]) (arr [0, 1, 0, 1]) (mem_const (7 : ℚ)) (4 - 2)).1 i *
              (s (i + 1)).c +
            (build_sweep (arr [0, 1, 2, 3]) (arr [0, 1, 0, 1]) (mem_const (7 : ℚ)) (4 - 2)).2 i :=
  ⟨by decide, by decide, C14_no_zero_pivot _ _ _ 4 _ (by decide) (by decide)⟩

/-! ## Segment selection -/

/-- On increasing nodes, later nodes are not smaller. -/
theorem increasing_le {x : Nat → α} {n : Nat} (hx : increasing x n) (i j : Nat) (hij : i ≤ j)
    (hj : j < n) : x i ≤ x j := by
  rcases Nat.eq_or_lt_of_le hij with h | h
  · rw [h]
  · exact (increasing_lt hx i j h hj).le

/-- C11. Segment selection: on a spline built from `n ≥ 2` increasing nodes, for
a query `x[0] < q < x[n - 1]` the segment evaluated by `f` is the result `j` of
the binary search (a total function: the loop terminates on every input), and
`j` is the smallest index with `q ≤ x[j]`, so `x[j - 1] < q ≤ x[j]`; for every
query the selected index lies in `[1, n - 1]` and `f` evaluates that segment. -/
theorem C11_segment_selection (self : cubic_spline α) (x y : Nat → α) (n : Nat)
    (m : fresh_mem α) (hn : 2 ≤ n) (hx : increasing x n) :
    ∃ s, (self.build_spline x y n m).splines = some s ∧
      (∀ q, x 0 < q → q < x (n - 1) →
        segment_index s n q = search s q 0 (n - 1) ∧
        x (search s q 0 (n - 1) - 1) < q ∧ q ≤ x (search s q 0 (n - 1)) ∧
        ∀ k, k < n → q ≤ x k → search s q 0 (n - 1) ≤ k) ∧
      (∀ q, 1 ≤ segment_index s n q ∧ segment_index s n q ≤ n - 1 ∧
        (self.build_spline x y n m).f q = some (horner (s (segment_index s n q)) q)) := by
  obtain ⟨s, al, be, hs, hsn, F⟩ := build_spline_fitted self x y n m hn
  have hsx : ∀ j, j < n → (s j).x = x j := fun j hj => (F.node j hj).1
  refine ⟨s, hs, ?_, ?_⟩
  · intro q h0 h1
    have hb := search_bounds s q 0 (n - 1) (by omega)
    have hk := search_bracket s q 0 (n - 1) (by omega)
      (by rw [hsx 0 (by omega)]; exact h0) (by rw [hsx (n - 1) (by omega)]; exact h1.le)
    rw [hsx _ (by omega), hsx _ (by omega)] at hk
    refine ⟨?_, hk.1, hk.2, ?_⟩
    · unfold segment_index
      rw [hsx 0 (by omega), hsx (n - 1) (by omega), if_neg (not_le.mpr h0),
        if_neg (not_le.mpr h1)]
    · intro k hkn hqk
      by_contra hlt
      have hle := increasing_le hx k (search s q 0 (n - 1) - 1) (by omega) (by omega)
      exact absurd (lt_of_le_of_lt (le_trans hqk hle) hk.1) (lt_irrefl _)
  · intro q
    have hb := segment_index_bounds s n q hn
    refine ⟨hb.1, hb.2, ?_⟩
    rw [f_of_splines _ s hs, hsn]

/-- The spline of the specification selects its segments by these rules. -/
theorem C11_segment_selection_witness :
    2 ≤ 4 ∧ increasing (arr [0, 1, 2, 3] : Nat → ℚ) 4 ∧
    ∃ s, ((new_cubic_spline 0).build_spline (arr [0, 1, 2, 3]) (arr [0, 1, 0, 1]) 4
        (mem_const (7 : ℚ))).splines = some s ∧
      (∀ q, arr [0, 1, 2, 3] 0 < q → q < arr [0, 1, 2, 3] (4 - 1) →
        segment_index s 4 q = search s q 0 (4 - 1) ∧
        arr [0, 1, 2, 3] (search s q 0 (4 - 1) - 1) < q ∧
        q ≤ arr [0, 1, 2, 3] (search s q 0 (4 - 1)) ∧
        ∀ k, k < 4 → q ≤ arr [0, 1, 2, 3] k → search s q 0 (4 - 1) ≤ k) ∧
      (∀ q, 1 ≤ segment_index s 4 q ∧ segment_index s 4 q ≤ 4 - 1 ∧
        ((new_cubic_spline 0).build_spline (arr [0, 1, 2, 3]) (arr [0, 1, 0, 1]) 4
          (mem_const (7 : ℚ))).f q = some (horner (s (segment_index s 4 q)) q)) :=
  ⟨by decide, by decide, C11_segment_selection _ _ _ 4 _ (by decide) (by decide)⟩

/-! ## The integrator without damping, and its termination -/

/-- With `lambda = 0` the derivative function is the pendulum right-hand side. -/
theorem func_lambda_zero (sin cos : α → α) (v x N : α) : func sin cos v x 0 N = -sin x := by
  simp [func]

/-- With `lambda = 0` the step of `R_K` does not depend on `N`. -/
theorem R_K_step_lambda_zero (sin cos : α → α) (h N1 N2 : α) (st : α × α) :
    R_K_step sin cos h 0 N1 st = R_K_step sin cos h 0 N2 st := by
  simp only [R_K_step, func_lambda_zero]

/-- With `lambda = 0` the loop of `R_K` does not depend on `N`. -/
theorem R_K_loop_lambda_zero (sin cos : α → α) (end_ h N1 N2 : α) (fuel : Nat) :
    ∀ (i : α) (st : α × α) (out : List α × List α),
      R_K_loop sin cos end_ h 0 N1 fuel i st out = R_K_loop sin cos end_ h 0 N2 fuel i st out := by
  induction fuel with
  | zero => intro i st out; simp [R_K_loop]
  | succ fuel ih =>
    intro i st out
    simp only [R_K_loop]
    rw [ih, R_K_step_lambda_zero sin cos h N1 N2]

/-- With `lambda = 0` the result of `R_K` does not depend on `N`. -/
theorem R_K_lambda_zero (sin cos : α → α) (fuel : Nat) (begin end_ h x0dash N1 N2 : α)
    (res res_v : List α) :
    R_K sin cos fuel begin end_ h 0 x0dash N1 res res_v =
      R_K sin cos fuel begin end_ h 0 x0dash N2 res res_v := by
  simp only [R_K, R_K_loop_lambda_zero sin cos end_ h N1 N2]

/-- With a step `h ≤ 0` and the counter below `end` the loop uses up any fuel. -/
theorem R_K_loop_diverges (sin cos : α → α) (end_ h lambda N : α) (hh : h ≤ 0) (fuel : Nat) :
    ∀ (i : α) (st : α × α) (out : List α × List α), i < end_ →
      R_K_loop sin cos end_ h lambda N fuel i st out = none := by
  induction fuel with
  | zero => intro i st out hi; simp [R_K_loop, hi]
  | succ fuel ih =>
    intro i st out hi
    rw [R_K_loop, if_pos hi]
    exact ih _ _ _ (by linarith)

/-- With `end ≤ begin` the loop body never runs: `R_K` only appends `x0dash` to `res`. -/
theorem R_K_no_step (sin cos : α → α) (fuel : Nat) (begin end_ h lambda x0dash N : α)
    (res res_v : List α) (hbe : end_ ≤ begin) :
    R_K sin cos fuel begin end_ h lambda x0dash N res res_v = some (res ++ [x0dash], res_v) := by
  have hi : ¬ begin < end_ := not_lt.mpr hbe
  cases fuel <;> simp [R_K, R_K_loop, hi]

/-- NaN absorbs a product from the right. -/
theorem double.mul_nan (d : double α) : d * double.nan = double.nan := by
  cases d <;> rfl

/-- NaN absorbs a sum from the left. -/
theorem double.nan_add (d : double α) : double.nan + d = double.nan := by
  cases d <;> rfl

/-- On `double` the product `2^1023 * 2` overflows to `+∞`. -/
theorem double.overflow_product :
    (double.fin ((2 : ℝ) ^ 1023) * double.fin 2 : double ℝ) = double.pinf := by
  show double.of_exact ((2 : ℝ) ^ 1023 * 2) = double.pinf
  unfold double.of_exact
  rw [if_pos]
  norm_num

/-- C12, as stated, fails on `double`: at `v = 1`, `x = 2`, `lambda = 0` and
`N = 2^1023` the product `N * x = 2^1024` overflows to `+∞`, `cos(+∞)` is NaN and
`0 * NaN` is NaN, so `func(v, x, 0, N)` is NaN and not `-sin(2)`. -/
theorem C12_counterexample :
    func (double.lib Real.sin) (double.lib Real.cos) (double.fin 1) (double.fin 2)
        (double.fin 0) (double.fin (2 ^ 1023)) = double.nan ∧
      func (double.lib Real.sin) (double.lib Real.cos) (double.fin 1) (double.fin 2)
        (double.fin 0) (double.fin (2 ^ 1023)) ≠ -(double.lib Real.sin (double.fin 2)) := by
  have e : func (double.lib Real.sin) (double.lib Real.cos) (double.fin 1) (double.fin 2)
      (double.fin 0) (double.fin (2 ^ 1023)) = double.nan := by
    simp only [func, double.overflow_product, double.lib, double.mul_nan, double.nan_add]
  refine ⟨e, ?_⟩
  rw [e]
  intro h
  exact double.noConfusion h

/-- C12, amended. Pendulum reduction in exact arithmetic: `func(v, x, 0, N) = -sin(x)`
for every `v`, `x`, `N`; with `lambda = 0` the result of `R_K` is the same for every
two values of `N` (on any fuel and any vectors), and for `h > 0` the two runs
return the same sequences. -/
theorem C12_pendulum_reduction [FloorRing α] (sin cos : α → α) (fuel : Nat)
    (begin end_ h x0dash N1 N2 : α) (hh : 0 < h) (hf : ⌈(end_ - begin) / h⌉₊ ≤ fuel) :
    (∀ v x N, func sin cos v x 0 N = -sin x) ∧
    (∀ (fuel2 : Nat) (h2 : α) (r rv : List α),
      R_K sin cos fuel2 begin end_ h2 0 x0dash N1 r rv =
        R_K sin cos fuel2 begin end_ h2 0 x0dash N2 r rv) ∧
    ∃ res res_v, R_K sin cos fuel begin end_ h 0 x0dash N1 [] [] = some (res, res_v) ∧
      R_K sin cos fuel begin end_ h 0 x0dash N2 [] [] = some (res, res_v) := by
  refine ⟨func_lambda_zero sin cos, fun fuel2 h2 r rv => R_K_lambda_zero sin cos _ _ _ _ _ _ _ _ _,
    _, _, R_K_returns sin cos fuel begin end_ h 0 x0dash N1 [] [] hh hf, ?_⟩
  rw [← R_K_lambda_zero sin cos fuel begin end_ h x0dash N1 N2]
  exact R_K_returns sin cos fuel begin end_ h 0 x0dash N1 [] [] hh hf

/-- The undamped run from 0 to 1 with step 1/2 and `x'(0) = 1` is the same for
`N = 3` and `N = 5`. -/
theorem C12_pendulum_reduction_witness :
    (0 : ℝ) < 1 / 2 ∧ ⌈((1 : ℝ) - 0) / (1 / 2)⌉₊ ≤ 2 ∧
    (∀ v x N, func Real.sin Real.cos v x 0 N = -Real.sin x) ∧
    (∀ (fuel2 : Nat) (h2 : ℝ) (r rv : List ℝ),
      R_K Real.sin Real.cos fuel2 0 1 h2 0 1 3 r rv =
        R_K Real.sin Real.cos fuel2 0 1 h2 0 1 5 r rv) ∧
    ∃ res res_v, R_K Real.sin Real.cos 2 0 1 (1 / 2) 0 1 3 [] [] = some (res, res_v) ∧
      R_K Real.sin Real.cos 2 0 1 (1 / 2) 0 1 5 [] [] = some (res, res_v) :=
  ⟨by norm_num, ceil_half_run,
    C12_pendulum_reduction Real.sin Real.cos 2 0 1 (1 / 2) 1 3 5 (by norm_num) ceil_half_run⟩

/-- C13. Termination of the integrator: for `h > 0` the loop of `R_K` ends, for
every `begin` and `end` (`ceil((end - begin) / h)` iterations are enough); for
`h ≤ 0` it ends if and only if `begin ≥ end`; whenever `begin ≥ end` the loop
body never runs, so `res_v` is left as it was and `res` only receives the
trailing `x0dash`; for `h ≤ 0` and `begin < end` no number of iterations ends
the loop. -/
theorem C13_termination [FloorRing α] (sin cos : α → α) (begin end_ h lambda x0dash N : α)
    (res res_v : List α) :
    (0 < h → ∀ fuel, ⌈(end_ - begin) / h⌉₊ ≤ fuel →
      (R_K sin cos fuel begin end_ h lambda x0dash N res res_v).isSome = true) ∧
    (h ≤ 0 →
      ((∃ fuel, (R_K sin cos fuel begin end_ h lambda x0dash N res res_v).isSome = true) ↔
        end_ ≤ begin)) ∧
    (end_ ≤ begin → ∀ fuel,
      R_K sin cos fuel begin end_ h lambda x0dash N res res_v = some (res ++ [x0dash], res_v)) ∧
    (h ≤ 0 → begin < end_ → ∀ fuel,
      R_K sin cos fuel begin end_ h lambda x0dash N res res_v = none) := by
  have h4 : h ≤ 0 → begin < end_ → ∀ fuel,
      R_K sin cos fuel begin end_ h lambda x0dash N res res_v = none := by
    intro hh hbe fuel
    simp only [R_K, R_K_loop_diverges sin cos end_ h lambda N hh fuel begin _ _ hbe]
  refine ⟨?_, ?_, fun hbe fuel => R_K_no_step sin cos fuel begin end_ h lambda x0dash N res res_v hbe,
    h4⟩
  · intro hh fuel hf
    rw [R_K_returns sin cos fuel begin end_ h lambda x0dash N res res_v hh hf]
    rfl
  · intro hh
    constructor
    · rintro ⟨fuel, hsome⟩
      by_contra hlt
      rw [h4 hh (not_le.mp hlt) fuel] at hsome
      simp at hsome
    · intro hbe
      refine ⟨0, ?_⟩
      rw [R_K_no_step sin cos 0 begin end_ h lambda x0dash N res res_v hbe]
      rfl

/-- Three runs with the defaults of the form: with step 1/2 from 0 to 1 the loop
ends within 2 iterations; with step -1 from 1 to 0 the body never runs; with
step -1 from 0 to 1 the loop never ends. -/
theorem C13_termination_witness :
    ((0 : ℝ) < 1 / 2 ∧ ⌈((1 : ℝ) - 0) / (1 / 2)⌉₊ ≤ 2 ∧
      (R_K Real.sin Real.cos 2 0 1 (1 / 2) 3 1 3 [] []).isSome = true) ∧
    ((0 : ℝ) ≤ 1 ∧
      ∀ fuel, R_K Real.sin Real.cos fuel 1 0 (-1) 3 1 3 [] [] = some ([] ++ [1], [])) ∧
    ((-1 : ℝ) ≤ 0 ∧ (0 : ℝ) < 1 ∧
      ∀ fuel, R_K Real.sin Real.cos fuel 0 1 (-1) 3 1 3 [] [] = none) :=
  ⟨⟨by norm_num, ceil_half_run,
      (C13_termination Real.sin Real.cos 0 1 (1 / 2) 3 1 3 [] []).1 (by norm_num) 2
        ceil_half_run⟩,
    ⟨by norm_num,
      (C13_termination Real.sin Real.cos 1 0 (-1) 3 1 3 [] []).2.2.1 (by norm_num)⟩,
    ⟨by norm_num, by norm_num,
      (C13_termination Real.sin Real.cos 0 1 (-1) 3 1 3 [] []).2.2.2 (by norm_num)
        (by norm_num)⟩⟩

/-! ## Linear data -/

/-- On linear data the right-hand side of the tridiagonal system vanishes, so
every `beta[i]` is 0. -/
theorem Fitted.be_linear {x y : Nat → α} {n : Nat} {s : Nat → spline_tuple α}
    {al be : Nat → α} (F : Fitted x y n s al be) (hx : increasing x n) (m k : α)
    (hy : ∀ i, i < n → y i = m * x i + k) (i : Nat) (hi : i ≤ n - 2) : be i = 0 := by
  induction i with
  | zero => exact F.be_zero
  | succ i ih =>
    have e := (F.sweep (i + 1) (by omega) hi).2
    simp only [Nat.add_sub_cancel] at e
    have h0 : x (i + 1) - x i ≠ 0 :=
      sub_ne_zero.mpr (increasing_lt hx i (i + 1) (by omega) (by omega)).ne.symm
    have h1 : x (i + 1 + 1) - x (i + 1) ≠ 0 :=
      sub_ne_zero.mpr (increasing_lt hx (i + 1) (i + 1 + 1) (by omega) (by omega)).ne.symm
    have d0 : (y (i + 1) - y i) / (x (i + 1) - x i) = m := by
      rw [hy (i + 1) (by omega), hy i (by omega)]
      field_simp
      ring
    have d1 : (y (i + 1 + 1) - y (i + 1)) / (x (i + 1 + 1) - x (i + 1)) = m := by
      rw [hy (i + 1 + 1) (by omega), hy (i + 1) (by omega)]
      field_simp
      ring
    rw [e, d0, d1, ih (by omega)]
    simp

/-- On linear data every stored `c` is 0. -/
theorem Fitted.c_linear {x y : Nat → α} {n : Nat} {s : Nat → spline_tuple α}
    {al be : Nat → α} (F : Fitted x y n s al be) (hx : increasing x n) (m k : α)
    (hy : ∀ i, i < n → y i = m * x i + k) (j : Nat) (hj : j < n) : (s j).c = 0 := by
  have key : ∀ d, d ≤ n - 1 → (s (n - 1 - d)).c = 0 := by
    intro d
    induction d with
    | zero => intro _; exact F.c_last
    | succ d ih =>
      intro hd
      have e := ih (by omega)
      have hi : n - 1 - (d + 1) + 1 = n - 1 - d := by omega
      rw [F.back_zero _ (by omega), hi, e, F.be_linear hx m k hy _ (by omega)]
      simp
  have := key (n - 1 - j) (by omega)
  have hj2 : n - 1 - (n - 1 - j) = j := by omega
  rwa [hj2] at this

/-- C15. Linear data is reproduced exactly: for `n ≥ 2`, increasing nodes and
`y[i] = m·x[i] + k` for every `i < n`, `build_spline` stores `c[i] = 0` for every
`i < n` and `d[i] = 0`, `b[i] = m` for `1 ≤ i < n`, and `f(q) = m·q + k` for every
query `q`, inside the node range and in both clamped regions. -/
theorem C15_linear_data (self : cubic_spline α) (x y : Nat → α) (n : Nat) (mem : fresh_mem α)
    (m k : α) (hn : 2 ≤ n) (hx : increasing x n) (hy : ∀ i, i < n → y i = m * x i + k) :
    ∃ s, (self.build_spline x y n mem).splines = some s ∧
      (∀ i, i < n → (s i).c = 0) ∧
      (∀ i, 1 ≤ i → i < n → (s i).d = 0 ∧ (s i).b = m) ∧
      ∀ q, (self.build_spline x y n mem).f q = some (m * q + k) := by
  obtain ⟨s, al, be, hs, hsn, F⟩ := build_spline_fitted self x y n mem hn
  have hc : ∀ i, i < n → (s i).c = 0 := fun i hi => F.c_linear hx m k hy i hi
  have hbd : ∀ i, 1 ≤ i → i < n → (s i).d = 0 ∧ (s i).b = m := by
    intro i h1 hi
    obtain ⟨ed, eb⟩ := F.bd i h1 hi
    have h0 : x i - x (i - 1) ≠ 0 :=
      sub_ne_zero.mpr (increasing_lt hx (i - 1) i (by omega) hi).ne.symm
    rw [ed, eb, hc i hi, hc (i - 1) (by omega), hy i hi, hy (i - 1) (by omega)]
    constructor
    · simp
    · field_simp
      ring
  refine ⟨s, hs, hc, hbd, fun q => ?_⟩
  have hb := segment_index_bounds s n q hn
  rw [f_of_splines _ s hs, hsn]
  generalize segment_index s n q = j at hb
  obtain ⟨ex, ea⟩ := F.node j (by omega)
  obtain ⟨ed, eb⟩ := hbd j hb.1 (by omega)
  simp only [horner]
  rw [ea, eb, ed, hc j (by omega), ex, hy j (by omega)]
  congr 1
  ring

/-- The values `[1, 3, 5, 7]` are the line `y = 2·x + 1` at the nodes `[0, 1, 2, 3]`. -/
theorem linear_samples :
    ∀ i, i < 4 → (arr [1, 3, 5, 7] : Nat → ℚ) i = 2 * arr [0, 1, 2, 3] i + 1 := by
  intro i hi
  interval_cases i <;> norm_num [arr]

/-- The line `y = 2·x + 1` sampled at the nodes `[0, 1, 2, 3]` is reproduced. -/
theorem C15_linear_data_witness :
    2 ≤ 4 ∧ increasing (arr [0, 1, 2, 3] : Nat → ℚ) 4 ∧
    (∀ i, i < 4 → (arr [1, 3, 5, 7] : Nat → ℚ) i = 2 * arr [0, 1, 2, 3] i + 1) ∧
    ∃ s, ((new_cubic_spline 0).build_spline (arr [0, 1, 2, 3]) (arr [1, 3, 5, 7]) 4
        (mem_const (7 : ℚ))).splines = some s ∧
      (∀ i, i < 4 → (s i).c = 0) ∧
      (∀ i, 1 ≤ i → i < 4 → (s i).d = 0 ∧ (s i).b = 2) ∧
      ∀ q, ((new_cubic_spline 0).build_spline (arr [0, 1, 2, 3]) (arr [1, 3, 5, 7]) 4
        (mem_const (7 : ℚ))).f q = some (2 * q + 1) :=
  ⟨by decide, by decide, linear_samples,
    C15_linear_data _ _ _ 4 _ 2 1 (by decide) (by decide) linear_samples⟩

end VMRK
